import Mathlib

/-!
Verification of the maestro workflow engine (src/maestro/workflow.py,
src/maestro/utils.py, src/maestro/logging_hooks.py) via a shallow embedding.

Modelling conventions:
* Python dicts are association lists with insertion order preserved and
  in-place overwrite (`dget`, `dinsert`).
* `Step.run` (the step executor class, not part of the sources at hand) is an
  oracle `String → String → Nat → Except String StepResult`: step name,
  effective prompt and step index to either a raised error or a result dict
  holding a `prompt` value and an optional `next` value.
* Agent handles are modelled by the name stored in their `agent_name`
  attribute (`Ref.handle`); the engine's agent table is the list of bound
  agent names.
* Walks are fuel-indexed recursions; running out of fuel is the distinct
  outcome `more`, exceptions are the outcome `err`.
* Each walk additionally records a trace of the successfully completed step
  executions (step name, effective input, step index), pure instrumentation
  used to state theorems about visit order and routed inputs.
-/

namespace Maestro

/-- Association-list lookup mirroring a Python dict read: the first binding of
the key. -/
def dget {α : Type} (d : List (String × α)) (k : String) : Option α :=
  (d.find? fun p => p.1 = k).map (·.2)

/-- Association-list write mirroring a Python dict write: overwrite the
binding in place when the key is present (dict keys are unique, so the first
binding is the binding), otherwise append. -/
def dinsert {α : Type} : List (String × α) → String → α → List (String × α)
  | [], k, v => [(k, v)]
  | p :: rest, k, v =>
      if p.1 = k then (k, v) :: rest else p :: dinsert rest k v

/-- A symbolic or bound reference stored in a step definition field.
`name` is the pre-binding symbolic string, `handle` a bound agent object whose
`agent_name` attribute is the stored string, `url` a resolved workflow url,
`null` Python `None`. -/
inductive Ref where
  | name (s : String)
  | handle (s : String)
  | url (u : String)
  | null
deriving DecidableEq, Repr

/-- One entry of `template["steps"]` (workflow.py), with the fields the engine
reads: `name`, `agent`, `workflow`, `parallel`, `loop` (its inner `agent`
field) and `from` (already normalised to a list; the engine wraps a bare
string into a singleton list). -/
structure StepDef where
  name : String
  agent : Option Ref := none
  workflow : Option Ref := none
  parallel : Option (List Ref) := none
  loop : Option Ref := none
  fromSources : Option (List String) := none
deriving DecidableEq, Repr

/-- The dict returned by one step execution: its `prompt` entry and its
optional `next` entry (workflow.py lines 309, 318). -/
structure StepResult where
  prompt : String
  next : Option String := none
deriving DecidableEq, Repr

/-- Instrumentation record of one completed step execution: the step name, the
effective input routed to it, and its step index. -/
structure ExecRecord where
  step : String
  input : String
  index : Nat
deriving DecidableEq, Repr

/-- The `step_defs` dict `{step["name"]: step for step in steps}`
(workflow.py line 210). -/
def mkStepDefs (steps : List StepDef) : List (String × StepDef) :=
  steps.foldl (fun d s => dinsert d s.name s) []

/-- `find_index` (workflow.py lines 199-203): index of the first step carrying
the given name. -/
def find_index (steps : List StepDef) (name : String) : Option Nat :=
  match steps with
  | [] => none
  | s :: rest =>
      if s.name = name then some 0 else (find_index rest name).map (· + 1)

/-- Outcome of the execution-pointer update at the end of one loop iteration. -/
inductive Advance where
  | next (n : String)
  | stop
  | fail (msg : String)
deriving DecidableEq, Repr

/-- The execution-pointer update shared verbatim by `_condition` (lines
318-325), `_condition_streaming` (lines 413-420) and `_condition_subflow`:
jump to the result's `next` value if present; otherwise stop when the current
name equals the last declared step's name, else move to the step after the
first declared step of the current name.  `fail` models the `TypeError` /
`IndexError` Python would raise when the current name is not declared. -/
def advance (steps : List StepDef) (current : String) :
    Option String → Advance
  | some n => .next n
  | none =>
      if steps.getLast?.map StepDef.name = some current then .stop
      else
        match find_index steps current with
        | some idx =>
            match steps[idx + 1]? with
            | some s => .next s.name
            | none => .fail "IndexError"
        | none => .fail "TypeError"

/-- Truthiness-respecting read of a step's `from` field: Python skips the
routing block when the value is absent or an empty list. -/
def from_list (d : StepDef) : Option (List String) :=
  match d.fromSources with
  | some l => if l.isEmpty then none else some l
  | none => none

/-- The condition under which the agent-name scan of `_condition` (lines
260-273) matches a step definition against a `from` source: a bound handle
whose `agent_name` equals the source, or (the `elif` branch) an agent field
that still literally equals the source string. -/
def agent_matches (source : String) : Option Ref → Bool
  | some (.handle a) => a = source
  | some (.name s) => s = source
  | _ => false

/-- Source resolution of the blocking walk's `from` routing (`_condition`
lines 253-278): `"prompt"` resolves to the initial prompt; a step name present
in `step_results` resolves to that recorded output; otherwise the first
declared step whose agent matches the source is looked up and, when that step
has completed, its recorded output is used; in every remaining case the source
string itself is the value. -/
def resolve_source (step_defs : List (String × StepDef))
    (step_results : List (String × String)) (initial_prompt : String)
    (source : String) : String :=
  if source = "prompt" then initial_prompt
  else
    match dget step_results source with
    | some v => v
    | none =>
        match step_defs.find? (fun p => agent_matches source p.2.agent) with
        | some p =>
            if p.1 = "" then source
            else
              match dget step_results p.1 with
              | some v => v
              | none => source
        | none => source

/-- Source resolution of the streaming walk's `from` routing
(`_condition_streaming` lines 374-380): `"prompt"` resolves to the current
rolling prompt variable, a step name in `step_results` to its output,
otherwise the literal source; there is no agent-name scan here. -/
def resolve_source_streaming (step_results : List (String × String))
    (rolling_prompt : String) (source : String) : String :=
  if source = "prompt" then rolling_prompt
  else
    match dget step_results source with
    | some v => v
    | none => source

/-- The joining step of `from` routing (lines 281-284): a single resolved
input is used verbatim; several are joined with a blank line, skipping values
that are empty (Python falsy) strings. -/
def join_inputs (inputs : List String) : String :=
  match inputs with
  | [i] => i
  | _ => String.intercalate "\n\n" (inputs.filter fun s => s ≠ "")

/-- The effective input of one blocking-walk iteration (lines 244-307): the
resolved and joined `from` sources when a truthy `from` is declared, the
rolling prompt otherwise. -/
def route_prompt (step_defs : List (String × StepDef))
    (step_results : List (String × String)) (initial_prompt rolling : String)
    (d : StepDef) : String :=
  match from_list d with
  | some srcs =>
      join_inputs (srcs.map (resolve_source step_defs step_results initial_prompt))
  | none => rolling

/-- The effective input of one streaming-walk iteration (lines 369-389). -/
def route_prompt_streaming (step_results : List (String × String))
    (rolling : String) (d : StepDef) : String :=
  match from_list d with
  | some srcs =>
      join_inputs (srcs.map (resolve_source_streaming step_results rolling))
  | none => rolling

/-- Binding of a step's `agent` field (`_condition` lines 213-218,
`_condition_streaming` lines 340-345): a truthy symbolic string is replaced by
the agent table entry; the write happens before the check, so a dangling name
leaves `None` in the field and then raises.  Non-string (already bound) values
and the falsy empty string are left untouched.  Returns the new field value
and the raised message, if any. -/
def bind_agent_field (agents : List String) :
    Option Ref → Option Ref × Option String
  | some (.name s) =>
      if s = "" then (some (.name s), none)
      else if s ∈ agents then (some (.handle s), none)
      else (some .null, some ("Could not find agent named " ++ s))
  | r => (r, none)

/-- Binding of a step's `workflow` field (lines 219-227 / 346-354): a truthy
string is matched against the declared workflows by name (the scan does not
break, so the last matching url wins) and replaced by the url; no match raises
`RuntimeError`.  A previously bound url is still a Python string and is
re-scanned as a name. -/
def bind_workflow_field (workflows : List (String × String)) :
    Option Ref → Option Ref × Option String
  | some (.name s) =>
      if s = "" then (some (.name s), none)
      else
        match (workflows.filter fun w => w.1 = s).getLast? with
        | some w => (some (.url w.2), none)
        | none => (some (.name s), some "Workflow doesnt exist")
  | some (.url u) =>
      if u = "" then (some (.url u), none)
      else
        match (workflows.filter fun w => w.1 = u).getLast? with
        | some w => (some (.url w.2), none)
        | none => (some (.url u), some "Workflow doesnt exist")
  | r => (r, none)

/-- Binding of a step's `parallel` field (line 229 / 356):
`[self.agents.get(name) for name in step["parallel"]]` — every member is
replaced by its table entry when the member is a known symbolic name and by
`None` otherwise; a dangling name never raises here. -/
def bind_parallel_field (agents : List String) :
    Option (List Ref) → Option (List Ref)
  | some refs =>
      some (refs.map fun r =>
        match r with
        | .name s => if s ∈ agents then .handle s else .null
        | _ => .null)
  | none => none

/-- Binding of a loop definition's `agent` field (lines 230-232 / 357-359):
`loop_def["agent"] = self.agents.get(loop_def.get("agent"))` — a known name
is replaced by its handle, anything else (dangling name, `None`, an already
bound object used as dict key) by `None`; never raises. -/
def bind_loop_field (agents : List String) : Option Ref → Option Ref
  | some (.name s) => some (if s ∈ agents then .handle s else .null)
  | some _ => some .null
  | none => none

/-- One iteration of the binding loop at the head of `_condition` /
`_condition_streaming` (lines 212-233 / 339-360): fields are processed in the
order agent, workflow, parallel, loop, mutating the step in place and raising
at the first failure (later fields of a failing step stay untouched). -/
def bind_step (agents : List String) (workflows : List (String × String))
    (s : StepDef) : StepDef × Option String :=
  match bind_agent_field agents s.agent with
  | (ag, some e) => ({ s with agent := ag }, some e)
  | (ag, none) =>
      match bind_workflow_field workflows s.workflow with
      | (wf, some e) => ({ s with agent := ag, workflow := wf }, some e)
      | (wf, none) =>
          ({ s with
              agent := ag
              workflow := wf
              parallel := bind_parallel_field agents s.parallel
              loop := bind_loop_field agents s.loop }, none)

/-- The whole binding loop: steps are bound in declaration order; the first
failure stops the loop, leaving the remaining steps untouched.  Returns the
mutated step list and the raised message, if any. -/
def bind_steps (agents : List String) (workflows : List (String × String)) :
    List StepDef → List StepDef × Option String
  | [] => ([], none)
  | s :: rest =>
      match bind_step agents workflows s with
      | (s', some e) => (s' :: rest, some e)
      | (s', none) =>
          match bind_steps agents workflows rest with
          | (rest', e') => (s' :: rest', e')

/-- The `exception` entry of a workflow template (read at workflow.py lines
92-94 and 123-125). -/
structure ExceptionSpec where
  agent : Option String := none
deriving DecidableEq, Repr

/-- The `event` entry of a workflow template (read in `process_event`,
lines 437-442). -/
structure EventSpec where
  cron : String := ""
  agent : Option String := none
  steps : List String := []
  exit : Option String := none
deriving DecidableEq, Repr

/-- The part of `workflow["spec"]["template"]` the engine reads: the prompt,
the declared steps, the declared sub-workflows (name, url), and the optional
event and exception entries. -/
structure Template where
  prompt : String
  steps : List StepDef
  workflows : List (String × String) := []
  event : Option EventSpec := none
  exception : Option ExceptionSpec := none
deriving DecidableEq, Repr

/-- The step-execution oracle standing for `Step.run` (the `Step` class is a
collaborator of workflow.py, not among the sources here): step name, effective
prompt and step index to the raised error or the result dict. -/
abbrev StepOracle := String → String → Nat → Except String StepResult

/-- The merged aggregate a finished walk returns (line 329 / 422):
the dict literal with the `final_prompt` entry followed by every recorded
step result, merged with Python dict update semantics. -/
def mkFinal (prompt : String) (step_results : List (String × String)) :
    List (String × String) :=
  step_results.foldl (fun d p => dinsert d p.1 p.2) [("final_prompt", prompt)]

/-- Outcome of the blocking walk `_condition`: normal return with the merged
aggregate, a raised exception, or fuel exhaustion (`more`); each carries the
trace of completed step executions. -/
inductive CondOut where
  | ok (res : List (String × String)) (trace : List ExecRecord)
  | err (msg : String) (trace : List ExecRecord)
  | more (trace : List ExecRecord)
deriving DecidableEq, Repr

/-- Prepend the record of the just-completed step to a walk outcome's trace. -/
def consTrace (r : ExecRecord) : CondOut → CondOut
  | .ok res tr => .ok res (r :: tr)
  | .err m tr => .err m (r :: tr)
  | .more tr => .more (r :: tr)

/-- The trace carried by a blocking-walk outcome. -/
def outTrace : CondOut → List ExecRecord
  | .ok _ tr => tr
  | .err _ tr => tr
  | .more tr => tr

/-- The while-loop of `_condition` (lines 241-329) over already bound steps:
look the current name up in `step_defs`; route the effective input (the `from`
block when a truthy `from` is present, otherwise the rolling prompt); run the
step; record its output under the step name; advance the pointer.  The
`"prompt"` source resolves to the walk's initial prompt here. -/
def condition_go (runStep : StepOracle) (steps : List StepDef)
    (initial_prompt : String) :
    Nat → List (String × String) → String → String → Nat → CondOut
  | 0, _, _, _, _ => .more []
  | fuel + 1, step_results, current, prompt, step_index =>
      match dget (mkStepDefs steps) current with
      | none => .err ("KeyError: " ++ current) []
      | some definition =>
          let step_prompt :=
            route_prompt (mkStepDefs steps) step_results initial_prompt prompt
              definition
          match runStep current step_prompt step_index with
          | .error e => .err e []
          | .ok result =>
              let rec_ : ExecRecord := ⟨current, step_prompt, step_index⟩
              let prompt' := result.prompt
              let step_results' := dinsert step_results current prompt'
              match advance steps current result.next with
              | .next n =>
                  consTrace rec_ (condition_go runStep steps initial_prompt
                    fuel step_results' n prompt' (step_index + 1))
              | .stop => .ok (mkFinal prompt' step_results') [rec_]
              | .fail m => .err m [rec_]

/-- `_condition` (lines 205-329): bind every step's symbolic references, then
walk from the first declared step with the template prompt. -/
def condition (agents : List String) (runStep : StepOracle)
    (template : Template) (fuel : Nat) : CondOut :=
  match bind_steps agents template.workflows template.steps with
  | (_, some e) => .err e []
  | (bound, none) =>
      match bound with
      | [] => .err "IndexError: steps is empty" []
      | s0 :: _ =>
          condition_go runStep bound template.prompt fuel [] s0.name
            template.prompt 0

/-- One event yielded by `run_streaming`: a per-step event (lines 405-411), the
terminal aggregate event (line 422), or the error event (lines 129-131).
The optional triple is the token-usage data attached when the bound agent
exposes token counters. -/
inductive StreamEvent where
  | step (step_name : String) (step_result : String) (step_index : Nat)
      (agent_name : Option String) (tokens : Option (Nat × Nat × Nat))
  | final (final_result : List (String × String))
  | error (msg : String)
deriving DecidableEq, Repr

/-- Outcome of the streaming walk: the yielded events plus the execution
trace; `err` is an exception escaping the generator body. -/
inductive StreamOut where
  | ok (events : List StreamEvent) (trace : List ExecRecord)
  | err (msg : String) (events : List StreamEvent) (trace : List ExecRecord)
  | more (events : List StreamEvent) (trace : List ExecRecord)
deriving DecidableEq, Repr

/-- Prepend the just-yielded event and the just-completed record to a
streaming outcome. -/
def consEvent (ev : StreamEvent) (r : ExecRecord) : StreamOut → StreamOut
  | .ok evs tr => .ok (ev :: evs) (r :: tr)
  | .err m evs tr => .err m (ev :: evs) (r :: tr)
  | .more evs tr => .more (ev :: evs) (r :: tr)

/-- The events carried by a streaming outcome. -/
def outEvents : StreamOut → List StreamEvent
  | .ok evs _ => evs
  | .err _ evs _ => evs
  | .more evs _ => evs

/-- The trace carried by a streaming outcome. -/
def outTraceS : StreamOut → List ExecRecord
  | .ok _ tr => tr
  | .err _ _ tr => tr
  | .more _ tr => tr

/-- The `agent_name` field of a step event (line 409): the bound handle's
`agent_name` when the step's agent field is truthy, otherwise `None`. -/
def agentNameOf : Option Ref → Option String
  | some (.handle a) => some a
  | _ => none

/-- The token-usage oracle: the counters exposed by a bound agent, or `none`
when the agent lacks a `prompt_tokens` attribute. -/
abbrev TokenOracle := Option Ref → Option (Nat × Nat × Nat)

/-- The while-loop of `_condition_streaming` (lines 367-422): as the blocking
walk, but a `from` source named `"prompt"` resolves to the current rolling
prompt (line 376), there is no agent-name scan, and after each step a step
event is yielded before the pointer advances; on normal termination the
terminal `final_result` event is yielded. -/
def streaming_go (runStep : StepOracle) (tokens : TokenOracle)
    (steps : List StepDef) :
    Nat → List (String × String) → String → String → Nat → StreamOut
  | 0, _, _, _, _ => .more [] []
  | fuel + 1, step_results, current, prompt, step_index =>
      match dget (mkStepDefs steps) current with
      | none => .err ("KeyError: " ++ current) [] []
      | some definition =>
          let step_prompt :=
            route_prompt_streaming step_results prompt definition
          match runStep current step_prompt step_index with
          | .error e => .err e [] []
          | .ok result =>
              let rec_ : ExecRecord := ⟨current, step_prompt, step_index⟩
              let prompt' := result.prompt
              let step_results' := dinsert step_results current prompt'
              let ev : StreamEvent :=
                .step current prompt' step_index
                  (agentNameOf definition.agent) (tokens definition.agent)
              match advance steps current result.next with
              | .next n =>
                  consEvent ev rec_ (streaming_go runStep tokens steps
                    fuel step_results' n prompt' (step_index + 1))
              | .stop =>
                  .ok [ev, .final (mkFinal prompt' step_results')] [rec_]
              | .fail m => .err m [ev] [rec_]

/-- `_condition_streaming` (lines 331-422): the binding loop is a verbatim
copy of the blocking one, then the streaming walk starts at the first declared
step with the template prompt. -/
def condition_streaming (agents : List String) (runStep : StepOracle)
    (tokens : TokenOracle) (template : Template) (fuel : Nat) : StreamOut :=
  match bind_steps agents template.workflows template.steps with
  | (_, some e) => .err e [] []
  | (bound, none) =>
      match bound with
      | [] => .err "IndexError: steps is empty" [] []
      | s0 :: _ =>
          streaming_go runStep tokens bound fuel [] s0.name template.prompt 0

/-- The result map handed to the event loop: the aggregate returned by the
first full pass, a dict from names to string outputs. -/
abbrev ResultMap := List (String × String)

/-- `eval_expression` (utils.py lines 6-17): evaluate the expression with the
single local binding `input` mapped to the given value.  The Python `eval`
builtin itself is the oracle `pyEval` (the truthiness of its result folded
in). -/
def eval_expression (pyEval : String → List (String × ResultMap) → Bool)
    (expression : String) (prompt : ResultMap) : Bool :=
  pyEval expression [("input", prompt)]

/-- Outcome of the event polling loop: the returned aggregate, or still
polling when the tick fuel runs out; both carry the number of times the event
body has fired. -/
inductive EvOut where
  | done (result : ResultMap) (fires : Nat)
  | more (fires : Nat)
deriving DecidableEq, Repr

/-- The polling loop of `process_event` (lines 444-471).  `cronMatches` is
the `pycron.is_now` oracle over tick numbers; `fireBody` abstracts the event
body (the designated agent invocation and the declared step sub-sequence,
lines 448-465) as a transformation of the result map; `run_once` starts true,
the body fires on the first cron-matching tick and sets it false; on every
matching tick the exit expression, when truthy, is evaluated against the
current result and a true value breaks the loop.  `tick` counts sleeps,
`fires` counts body executions. -/
def process_event_go (cronMatches : Nat → Bool)
    (fireBody : ResultMap → ResultMap)
    (pyEval : String → List (String × ResultMap) → Bool) (ev : EventSpec) :
    Nat → Bool → ResultMap → Nat → Nat → EvOut
  | 0, _, _, _, fires => .more fires
  | fuel + 1, run_once, result, tick, fires =>
      if cronMatches tick then
        let result' := if run_once then fireBody result else result
        let fires' := if run_once then fires + 1 else fires
        match ev.exit with
        | some ex =>
            if ex ≠ "" && eval_expression pyEval ex result' then
              .done result' fires'
            else
              process_event_go cronMatches fireBody pyEval ev fuel false
                result' (tick + 1) fires'
        | none =>
            process_event_go cronMatches fireBody pyEval ev fuel false
              result' (tick + 1) fires'
      else
        process_event_go cronMatches fireBody pyEval ev fuel run_once result
          (tick + 1) fires

/-- `process_event` (lines 437-472): start the polling loop at the first tick
with `run_once = True` and no firing yet. -/
def process_event (cronMatches : Nat → Bool)
    (fireBody : ResultMap → ResultMap)
    (pyEval : String → List (String × ResultMap) → Bool) (ev : EventSpec)
    (result : ResultMap) (fuel : Nat) : EvOut :=
  process_event_go cronMatches fireBody pyEval ev fuel true result 0 0

/-- `run(prompt)` writes a truthy prompt argument into the caller's template
before anything else (lines 70-72 / 103-104). -/
def apply_prompt (template : Template) (promptArg : String) : Template :=
  if promptArg ≠ "" then { template with prompt := promptArg } else template

/-- Outcome of blocking `run`: the aggregate; or the declared handler agent
invoked with the raised error as input and step index `-1` and `None`
returned; or the error re-raised; or fuel exhaustion. -/
inductive RunOut where
  | ok (res : ResultMap) (trace : List ExecRecord)
  | handled (agent : String) (errInput : String) (stepIdx : Int)
      (trace : List ExecRecord)
  | raised (msg : String) (trace : List ExecRecord)
  | more (trace : List ExecRecord)
deriving DecidableEq, Repr

/-- `run` (workflow.py lines 70-99): write the prompt argument into the
template, walk the steps, hand the aggregate to `process_event` when an event
is declared; a raised error is either given to the declared handler agent
(input the error, step index `-1`, return `None`) when that agent is bound,
or re-raised. -/
def run (agents : List String) (runStep : StepOracle)
    (cronMatches : Nat → Bool) (fireBody : ResultMap → ResultMap)
    (pyEval : String → List (String × ResultMap) → Bool)
    (template : Template) (promptArg : String) (fuel evFuel : Nat) : RunOut :=
  let t := apply_prompt template promptArg
  match condition agents runStep t fuel with
  | .more tr => .more tr
  | .ok res tr =>
      match t.event with
      | some ev =>
          match process_event cronMatches fireBody pyEval ev res evFuel with
          | .done r _ => .ok r tr
          | .more _ => .more tr
      | none => .ok res tr
  | .err e tr =>
      match t.exception with
      | some exc =>
          match exc.agent with
          | some a => if a ∈ agents then .handled a e (-1) tr else .raised e tr
          | none => .raised e tr
      | none => .raised e tr

/-- Outcome of `run_streaming`: the yielded events and the handler-agent
invocations (agent name, error input, step index), or fuel exhaustion. -/
inductive StreamRunOut where
  | out (events : List StreamEvent)
      (handlerCalls : List (String × String × Int))
  | more (events : List StreamEvent)
deriving DecidableEq, Repr

/-- `run_streaming` (lines 101-131) for templates without an `event` entry
(the claims checked here never combine streaming with an event; the exception
branch below is reached identically in the source whether or not an event is
declared, because a walk exception aborts the generator before the event
handoff).  On an escaped exception: with a declared and bound handler agent
the handler runs with the error and step index `-1` and the error event is
yielded; with a declared but unbound or undeclared handler agent nothing more
is yielded; with no exception entry the error event is yielded. -/
def run_streaming (agents : List String) (runStep : StepOracle)
    (tokens : TokenOracle) (template : Template) (promptArg : String)
    (fuel : Nat) : StreamRunOut :=
  let t := apply_prompt template promptArg
  match condition_streaming agents runStep tokens t fuel with
  | .ok evs _ => .out evs []
  | .more evs _ => .more evs
  | .err e evs _ =>
      match t.exception with
      | some exc =>
          match exc.agent with
          | some a =>
              if a ∈ agents then .out (evs ++ [.error e]) [(a, e, -1)]
              else .out evs []
          | none => .out evs []
      | none => .out (evs ++ [.error e]) []

/-- The caller's template after a run: `run` / `run_streaming` write a truthy
prompt argument into it (lines 71-72 / 103-104) and the binding loop rewrites
the step entries in place (lines 212-233 / 339-360); the walk itself performs
no further template writes.  (The event sub-flow, out of scope here, would
additionally re-bind loop fields of its sub-steps.) -/
def run_template_after (agents : List String)
    (template : Template) (promptArg : String) : Template :=
  let t := apply_prompt template promptArg
  { t with steps := (bind_steps agents t.workflows t.steps).1 }

/-- One record appended to the log sink by the logging hook (the fields of
`logger.log_agent_response`, logging_hooks.py lines 31-43, without the
wall-clock fields, which a shallow embedding cannot carry). -/
structure LogEntry where
  workflow_id : Option String
  step_index : Int
  agent_name : String
  model : String
  input_text : String
  response_text : String
  token_usage : Option (Nat × Nat × Nat)
deriving DecidableEq, Repr

/-- The wrapper produced by `log_agent_run` (logging_hooks.py lines 8-53)
around a bound agent's `run`: pop `step_index` (raise when missing), await the
wrapped run, then append the execution record to the log sink and return the
result.  The append sits after the plain `await`, in no try/finally block, so
an exception from the wrapped run propagates with the sink unchanged.  The
value is the call's outcome paired with the sink after the call. -/
def log_agent_run (workflow_id : Option String)
    (agent_name agent_model : String)
    (run_func : String → Except String String)
    (token_usage : Option (Nat × Nat × Nat)) (log : List LogEntry)
    (input : String) (step_index : Option Int) :
    Except String String × List LogEntry :=
  match step_index with
  | none => (.error "Missing step_index for logging.", log)
  | some si =>
      match run_func input with
      | .error e => (.error e, log)
      | .ok result =>
          (.ok result,
           log ++ [⟨workflow_id, si, agent_name, agent_model, input, result,
                    token_usage⟩])

/-- Oracle for a deterministic, never-raising, never-jumping step body — the
shape of a plain single-agent step whose agent is a pure function of its
input. -/
def pureOracle (f : String → String → Nat → String) : StepOracle :=
  fun s p i => Except.ok { prompt := f s p i, next := none }

/-- Whether a blocking-walk outcome is a normal completion. -/
def isOk : CondOut → Bool
  | .ok _ _ => true
  | _ => false

/-- Whether a streaming-walk outcome is a normal completion. -/
def isOkS : StreamOut → Bool
  | .ok _ _ => true
  | _ => false

/-- Spec-side successor rule, written from the claim wording rather than the
code: after a step completes, the next step visited is the one named by the
result's `next` value if present; otherwise, the step immediately following
the current step in declaration order, or no step (termination) when the
current step is the last declared step (its first declared index has no
successor). -/
def spec_next_step (steps : List StepDef) (current : String)
    (res : StepResult) : Option String :=
  match res.next with
  | some n => some n
  | none =>
      match find_index steps current with
      | some i => (steps[i + 1]?).map StepDef.name
      | none => none

/-- The visited steps of a trace follow the spec-side successor rule: each
consecutive pair of completed executions is linked by `spec_next_step`
applied to the earlier execution's result. -/
def follows_spec (R : StepOracle) (steps : List StepDef) :
    List ExecRecord → Prop
  | r1 :: r2 :: rest =>
      (∀ res, R r1.step r1.input r1.index = Except.ok res →
        spec_next_step steps r1.step res = some r2.step) ∧
      follows_spec R steps (r2 :: rest)
  | _ => True

/-- A walk trace together with its completion flag satisfies the claimed
sequencing discipline: consecutive visits follow `spec_next_step`, and the
last completed execution has no spec-side successor exactly when the walk
terminated normally. -/
def trace_follows (R : StepOracle) (steps : List StepDef)
    (tr : List ExecRecord) (completed : Bool) : Prop :=
  follows_spec R steps tr ∧
  ∀ r, tr.getLast? = some r →
    ∀ res, R r.step r.input r.index = Except.ok res →
      (spec_next_step steps r.step res = none ↔ completed = true)

/-- The claimed routing of the source `"prompt"` along a streaming trace: a
step declaring `from = ["prompt"]` receives the current rolling prompt — the
walk's start prompt for the first visit, afterwards the previous completed
step's output. -/
def stream_prompt_chain (R : StepOracle) (defs : List (String × StepDef)) :
    String → List ExecRecord → Prop
  | _, [] => True
  | p, r :: rest =>
      (∀ d, dget defs r.step = some d → from_list d = some ["prompt"] →
        r.input = p) ∧
      (∀ res, R r.step r.input r.index = Except.ok res →
        stream_prompt_chain R defs res.prompt rest)

theorem dget_dinsert_self {α : Type} (d : List (String × α)) (k : String)
    (v : α) : dget (dinsert d k v) k = some v := by
  induction d with
  | nil => simp [dinsert, dget, List.find?]
  | cons p rest ih =>
      by_cases h : p.1 = k
      · simp [dinsert, h, dget, List.find?]
      · simpa [dinsert, h, dget, List.find?] using ih

theorem dget_dinsert_ne {α : Type} (d : List (String × α)) (k k' : String)
    (v : α) (h : k ≠ k') : dget (dinsert d k' v) k = dget d k := by
  induction d with
  | nil => simp [dinsert, dget, List.find?, Ne.symm h]
  | cons p rest ih =>
      by_cases hp : p.1 = k'
      · simp [dinsert, hp, dget, List.find?, Ne.symm h, hp ▸ (Ne.symm h)]
      · by_cases hk : p.1 = k
        · simp [dinsert, hp, dget, List.find?, hk, h]
        · simpa [dinsert, hp, dget, List.find?, hk] using ih

theorem outTrace_consTrace (r : ExecRecord) (o : CondOut) :
    outTrace (consTrace r o) = r :: outTrace o := by
  cases o <;> rfl

theorem isOk_consTrace (r : ExecRecord) (o : CondOut) :
    isOk (consTrace r o) = isOk o := by
  cases o <;> rfl

theorem outTraceS_consEvent (ev : StreamEvent) (r : ExecRecord)
    (o : StreamOut) : outTraceS (consEvent ev r o) = r :: outTraceS o := by
  cases o <;> rfl

theorem outEvents_consEvent (ev : StreamEvent) (r : ExecRecord)
    (o : StreamOut) : outEvents (consEvent ev r o) = ev :: outEvents o := by
  cases o <;> rfl

theorem isOkS_consEvent (ev : StreamEvent) (r : ExecRecord) (o : StreamOut) :
    isOkS (consEvent ev r o) = isOkS o := by
  cases o <;> rfl

theorem bind_step_name (agents : List String)
    (workflows : List (String × String)) (s : StepDef) :
    ((bind_step agents workflows s).1).name = s.name := by
  unfold bind_step
  rcases bind_agent_field agents s.agent with ⟨ag, e1⟩
  cases e1
  · rcases bind_workflow_field workflows s.workflow with ⟨wf, e2⟩
    cases e2 <;> rfl
  · rfl

theorem bind_step_fromSources (agents : List String)
    (workflows : List (String × String)) (s : StepDef) :
    ((bind_step agents workflows s).1).fromSources = s.fromSources := by
  unfold bind_step
  rcases bind_agent_field agents s.agent with ⟨ag, e1⟩
  cases e1
  · rcases bind_workflow_field workflows s.workflow with ⟨wf, e2⟩
    cases e2 <;> rfl
  · rfl

theorem bind_steps_names (agents : List String)
    (workflows : List (String × String)) (steps : List StepDef) :
    ((bind_steps agents workflows steps).1).map StepDef.name =
      steps.map StepDef.name := by
  induction steps with
  | nil => rfl
  | cons s rest ih =>
      unfold bind_steps
      rcases hs : bind_step agents workflows s with ⟨s', e⟩
      have hname : s'.name = s.name := by
        have := bind_step_name agents workflows s
        rwa [hs] at this
      cases e
      · rcases hr : bind_steps agents workflows rest with ⟨rest', e'⟩
        simp only [List.map_cons, hname]
        rw [hr] at ih
        simpa using ih
      · simp [hname]

theorem bind_steps_cons_ok (agents : List String)
    (workflows : List (String × String)) (s : StepDef) (rest : List StepDef)
    (h : (bind_steps agents workflows (s :: rest)).2 = none) :
    (bind_step agents workflows s).2 = none ∧
      (bind_steps agents workflows rest).2 = none ∧
      (bind_steps agents workflows (s :: rest)).1 =
        (bind_step agents workflows s).1 ::
          (bind_steps agents workflows rest).1 := by
  rcases hs : bind_step agents workflows s with ⟨s', e⟩
  rcases hr : bind_steps agents workflows rest with ⟨rest', e'⟩
  simp only [bind_steps, hs, hr] at h ⊢
  cases e
  · simp_all
  · simp at h

theorem bind_steps_fromSources (agents : List String)
    (workflows : List (String × String)) (steps : List StepDef) :
    ((bind_steps agents workflows steps).1).map StepDef.fromSources =
      steps.map StepDef.fromSources := by
  induction steps with
  | nil => rfl
  | cons s rest ih =>
      unfold bind_steps
      rcases hs : bind_step agents workflows s with ⟨s', e⟩
      have hfr : s'.fromSources = s.fromSources := by
        have := bind_step_fromSources agents workflows s
        rwa [hs] at this
      cases e
      · rcases hr : bind_steps agents workflows rest with ⟨rest', e'⟩
        simp only [List.map_cons, hfr]
        rw [hr] at ih
        simpa using ih
      · simp [hfr]

theorem bind_step_prebound (agents : List String)
    (ws : List (String × String)) (s : StepDef)
    (h1 : ∀ nm, s.agent ≠ some (Ref.name nm)) (h2 : s.workflow = none)
    (h3 : s.parallel = none) (h4 : s.loop = none) :
    bind_step agents ws s = (s, none) := by
  obtain ⟨nm, ag, wf, par, lp, fr⟩ := s
  simp only at h1 h2 h3 h4
  subst h2; subst h3; subst h4
  cases ag with
  | none => rfl
  | some r =>
      cases r with
      | name a => exact absurd rfl (h1 a)
      | handle a => rfl
      | url a => rfl
      | null => rfl

theorem bind_steps_prebound (agents : List String)
    (ws : List (String × String)) (steps : List StepDef)
    (h : ∀ s ∈ steps, (∀ nm, s.agent ≠ some (Ref.name nm)) ∧
      s.workflow = none ∧ s.parallel = none ∧ s.loop = none) :
    bind_steps agents ws steps = (steps, none) := by
  induction steps with
  | nil => rfl
  | cons s rest ih =>
      have hs := h s (by simp)
      have hstep := bind_step_prebound agents ws s hs.1 hs.2.1 hs.2.2.1 hs.2.2.2
      have hrest := ih (fun x hx => h x (by simp [hx]))
      simp only [bind_steps, hstep, hrest]

theorem apply_prompt_prompt (t : Template) (prm : String) :
    (apply_prompt t prm).prompt = if prm ≠ "" then prm else t.prompt := by
  unfold apply_prompt; split <;> simp_all

theorem apply_prompt_steps (t : Template) (prm : String) :
    (apply_prompt t prm).steps = t.steps := by
  unfold apply_prompt; split <;> rfl

theorem apply_prompt_workflows (t : Template) (prm : String) :
    (apply_prompt t prm).workflows = t.workflows := by
  unfold apply_prompt; split <;> rfl

theorem apply_prompt_exception (t : Template) (prm : String) :
    (apply_prompt t prm).exception = t.exception := by
  unfold apply_prompt; split <;> rfl

theorem apply_prompt_event (t : Template) (prm : String) :
    (apply_prompt t prm).event = t.event := by
  unfold apply_prompt; split <;> rfl

/-- C8 counterexample: a wrapped run that raises.  The wrapper returns the
propagated error and the log sink is unchanged — the hook recorded nothing,
against the claim that the metadata is recorded on every invocation
including raising ones. -/
theorem claim_C8_counterexample :
    log_agent_run none "a" "m" (fun _ => Except.error "boom") none []
      "hi" (some 0) = (Except.error "boom", []) := rfl

/-- C8, amended: the hook produced by `log_agent_run` appends the execution
record to the log sink exactly on invocations in which the wrapped run
returns normally; when the wrapped run raises, the exception propagates with
the sink unchanged (there is no guaranteed-cleanup region), and a missing
step index raises before the wrapped run executes. -/
theorem claim_C8_logging_on_success (wid : Option String) (an am : String)
    (rf : String → Except String String) (tu : Option (Nat × Nat × Nat))
    (log : List LogEntry) (inp : String) (si : Int) :
    (∀ r, rf inp = Except.ok r →
       log_agent_run wid an am rf tu log inp (some si) =
         (Except.ok r, log ++ [⟨wid, si, an, am, inp, r, tu⟩])) ∧
    (∀ e, rf inp = Except.error e →
       log_agent_run wid an am rf tu log inp (some si) =
         (Except.error e, log)) ∧
    log_agent_run wid an am rf tu log inp none =
      (Except.error "Missing step_index for logging.", log) := by
  refine ⟨fun r hr => ?_, fun e he => ?_, rfl⟩
  · simp [log_agent_run, hr]
  · simp [log_agent_run, he]

theorem claim_C8_witness :
    log_agent_run none "a" "m" (fun s => Except.ok (s ++ "!")) none []
      "hi" (some 2) =
      (Except.ok "hi!", [⟨none, 2, "a", "m", "hi", "hi!", none⟩]) :=
  (claim_C8_logging_on_success none "a" "m" (fun s => Except.ok (s ++ "!"))
    none [] "hi" 2).1 "hi!" rfl

/-- C9 counterexample: a run with a fresh prompt argument over a bound agent
named `a` leaves the caller's template changed — the prompt field is
overwritten and the step's symbolic agent reference is replaced by the bound
handle — against the claim that the mapping is unchanged by a run. -/
theorem claim_C9_counterexample :
    run_template_after ["a"]
      { prompt := "old", steps := [{ name := "s", agent := some (.name "a") }] }
      "new" ≠
      { prompt := "old",
        steps := [{ name := "s", agent := some (.name "a") }] } := by decide

/-- C9, amended: a run mutates the caller's template in exactly two ways —
`run(prompt)` overwrites the template prompt with a truthy prompt argument,
and reference binding rewrites the step entries' agent/workflow/parallel/loop
fields in place.  Step names, order and `from` declarations are preserved,
and a template whose steps carry no symbolic or re-bindable references is
left unchanged by a run with an empty prompt argument.  The walk performs no
further template writes (the template prompt read by the walk is fixed at
walk start). -/
theorem claim_C9_template_mutation (agents : List String) (t : Template)
    (prm : String) :
    ((run_template_after agents t prm).prompt =
      if prm ≠ "" then prm else t.prompt) ∧
    ((run_template_after agents t prm).steps.map StepDef.name =
      t.steps.map StepDef.name) ∧
    ((run_template_after agents t prm).steps.map StepDef.fromSources =
      t.steps.map StepDef.fromSources) ∧
    ((∀ s ∈ t.steps, (∀ nm, s.agent ≠ some (Ref.name nm)) ∧
        s.workflow = none ∧ s.parallel = none ∧ s.loop = none) →
      run_template_after agents t "" = t) := by
  refine ⟨?_, ?_, ?_, fun h => ?_⟩
  · show ({ apply_prompt t prm with
      steps := (bind_steps agents (apply_prompt t prm).workflows
        (apply_prompt t prm).steps).1 }).prompt = _
    rw [← apply_prompt_prompt]
  · show ((bind_steps agents (apply_prompt t prm).workflows
        (apply_prompt t prm).steps).1).map StepDef.name = _
    rw [bind_steps_names, apply_prompt_steps]
  · show ((bind_steps agents (apply_prompt t prm).workflows
        (apply_prompt t prm).steps).1).map StepDef.fromSources = _
    rw [bind_steps_fromSources, apply_prompt_steps]
  · show ({ apply_prompt t "" with
      steps := (bind_steps agents (apply_prompt t "").workflows
        (apply_prompt t "").steps).1 }) = t
    have ha : apply_prompt t "" = t := rfl
    rw [ha, bind_steps_prebound agents t.workflows t.steps h]

theorem claim_C9_witness :
    run_template_after [] { prompt := "p", steps := [{ name := "s" }] } "" =
      { prompt := "p", steps := [{ name := "s" }] } := by
  have h := (claim_C9_template_mutation []
    { prompt := "p", steps := [{ name := "s" }] } "").2.2.2
  exact h (by
    intro s hs
    simp only [List.mem_singleton] at hs
    subst hs
    exact ⟨fun nm => by simp, rfl, rfl, rfl⟩)

/-- C7 counterexample: with an empty agent table, a workflow whose only step
carries the dangling parallel member name `ghost` binds without error and the
step executes (the trace holds its completed execution) — against the claim
that a dangling parallel member causes a failure before the first step
runs. -/
theorem claim_C7_counterexample :
    condition [] (pureOracle fun _ _ _ => "out")
      { prompt := "p",
        steps := [{ name := "s", parallel := some [.name "ghost"] }] } 5 =
      .ok [("final_prompt", "out"), ("s", "out")] [⟨"s", "p", 0⟩] ∧
    (bind_steps [] []
      [({ name := "s", parallel := some [.name "ghost"] } : StepDef)]).2 =
      none := by decide

/-- C7, amended: reference binding runs before any step executes and a
binding failure aborts the walk with an empty execution trace; it fails for
a dangling truthy agent name and for a dangling truthy sub-workflow name,
but a dangling parallel member name or loop agent name is silently bound to
a null handle and causes no pre-execution failure. -/
theorem claim_C7_fail_fast_scope (agents : List String)
    (ws : List (String × String)) (R : StepOracle) (t : Template)
    (fuel : Nat) :
    (∀ e, (bind_steps agents t.workflows t.steps).2 = some e →
       condition agents R t fuel = .err e []) ∧
    (∀ s nm, s.agent = some (Ref.name nm) → nm ≠ "" → nm ∉ agents →
       (bind_step agents ws s).2 =
         some ("Could not find agent named " ++ nm)) ∧
    (∀ s nm, (bind_agent_field agents s.agent).2 = none →
       s.workflow = some (Ref.name nm) → nm ≠ "" →
       (ws.filter fun w => w.1 = nm) = [] →
       (bind_step agents ws s).2 = some "Workflow doesnt exist") ∧
    (∀ s, s.agent = none → s.workflow = none →
       (bind_step agents ws s).2 = none) ∧
    (∀ nm, nm ∉ agents →
       bind_parallel_field agents (some [Ref.name nm]) = some [Ref.null] ∧
       bind_loop_field agents (some (Ref.name nm)) = some Ref.null) := by
  refine ⟨fun e he => ?_, fun s nm hag hne hmem => ?_,
    fun s nm hagok hwf hne hfil => ?_, fun s hag hwf => ?_,
    fun nm hmem => ?_⟩
  · unfold condition
    rcases hb : bind_steps agents t.workflows t.steps with ⟨bd, er⟩
    rw [hb] at he
    simp only at he
    subst he
    rfl
  · unfold bind_step
    simp [bind_agent_field, hag, hne, hmem]
  · unfold bind_step
    rcases ha : bind_agent_field agents s.agent with ⟨ag, e1⟩
    rw [ha] at hagok
    simp only at hagok
    subst hagok
    simp [bind_workflow_field, hwf, hne, hfil]
  · unfold bind_step
    simp [bind_agent_field, hag, bind_workflow_field, hwf]
  · simp [bind_parallel_field, bind_loop_field, hmem]

theorem claim_C7_witness :
    (bind_step ([] : List String) []
      { name := "s", agent := some (Ref.name "ghost") } :
        StepDef × Option String).2 =
      some ("Could not find agent named " ++ "ghost") :=
  (claim_C7_fail_fast_scope [] [] (pureOracle fun _ _ _ => "")
    { prompt := "", steps := [] } 0).2.1
    { name := "s", agent := some (Ref.name "ghost") } "ghost" rfl
    (by decide) (by decide)

theorem process_event_go_frozen (C : Nat → Bool)
    (F : ResultMap → ResultMap)
    (P : String → List (String × ResultMap) → Bool) (ev : EventSpec) :
    ∀ fuel r t f,
      (∀ r' f',
        process_event_go C F P ev fuel false r t f = .done r' f' →
          r' = r ∧ f' = f) ∧
      (∀ f', process_event_go C F P ev fuel false r t f = .more f' → f' = f)
  | 0, r, t, f => by
      constructor
      · intro r' f' h; simp [process_event_go] at h
      · intro f' h; simp [process_event_go] at h; omega
  | fuel + 1, r, t, f => by
      have IH := process_event_go_frozen C F P ev fuel r (t + 1) f
      constructor
      · intro r' f' h
        simp only [process_event_go] at h
        by_cases hC : C t = true
        · rw [if_pos hC] at h
          rcases hex : ev.exit with _ | ex
          · simp only [hex, Bool.false_eq_true, if_false, eq_self_iff_true, if_true] at h
            exact IH.1 r' f' h
          · simp only [hex, Bool.false_eq_true, if_false, eq_self_iff_true, if_true] at h
            by_cases hcond : (ex ≠ "" && eval_expression P ex r) = true
            · rw [if_pos hcond] at h
              cases h
              exact ⟨rfl, rfl⟩
            · rw [if_neg hcond] at h
              exact IH.1 r' f' h
        · rw [if_neg hC] at h
          exact IH.1 r' f' h
      · intro f' h
        simp only [process_event_go] at h
        by_cases hC : C t = true
        · rw [if_pos hC] at h
          rcases hex : ev.exit with _ | ex
          · simp only [hex, Bool.false_eq_true, if_false, eq_self_iff_true, if_true] at h
            exact IH.2 f' h
          · simp only [hex, Bool.false_eq_true, if_false, eq_self_iff_true, if_true] at h
            by_cases hcond : (ex ≠ "" && eval_expression P ex r) = true
            · rw [if_pos hcond] at h
              cases h
            · rw [if_neg hcond] at h
              exact IH.2 f' h
        · rw [if_neg hC] at h
          exact IH.2 f' h

theorem process_event_go_once (C : Nat → Bool) (F : ResultMap → ResultMap)
    (P : String → List (String × ResultMap) → Bool) (ev : EventSpec) :
    ∀ fuel r t f r' f',
      process_event_go C F P ev fuel true r t f = .done r' f' → f' = f + 1
  | 0, r, t, f, r', f' => by
      intro h; simp [process_event_go] at h
  | fuel + 1, r, t, f, r', f' => by
      intro h
      simp only [process_event_go] at h
      by_cases hC : C t = true
      · rw [if_pos hC] at h
        rcases hex : ev.exit with _ | ex
        · simp only [hex, Bool.false_eq_true, if_false, eq_self_iff_true, if_true] at h
          exact ((process_event_go_frozen C F P ev fuel (F r) (t + 1)
            (f + 1)).1 r' f' h).2
        · simp only [hex, Bool.false_eq_true, if_false, eq_self_iff_true, if_true] at h
          by_cases hcond : (ex ≠ "" && eval_expression P ex (F r)) = true
          · rw [if_pos hcond] at h
            cases h
            rfl
          · rw [if_neg hcond] at h
            exact ((process_event_go_frozen C F P ev fuel (F r) (t + 1)
              (f + 1)).1 r' f' h).2
      · rw [if_neg hC] at h
        exact process_event_go_once C F P ev fuel r (t + 1) f r' f' h

/-- C4: the event scheduler fires the body exactly once.  First conjunct:
once the body has fired (`run_once` false), no later cron-matching tick fires
it again or changes the aggregate — only the exit predicate is evaluated.
Second conjunct: any completed run from the armed state fired the body
exactly once.  Third conjunct: when the cron expression matches at once and
the exit expression is truthy on its first evaluation after the firing,
`process_event` returns the aggregate produced by the single firing with fire
count one, without a second firing. -/
theorem claim_C4_fires_exactly_once (C : Nat → Bool)
    (F : ResultMap → ResultMap)
    (P : String → List (String × ResultMap) → Bool) (ev : EventSpec) :
    (∀ fuel r t f r' f',
       process_event_go C F P ev fuel false r t f = .done r' f' →
         r' = r ∧ f' = f) ∧
    (∀ fuel r t f r' f',
       process_event_go C F P ev fuel true r t f = .done r' f' →
         f' = f + 1) ∧
    (∀ fuel r ex, C 0 = true → ev.exit = some ex → ex ≠ "" →
       eval_expression P ex (F r) = true →
       process_event C F P ev r (fuel + 1) = .done (F r) 1) := by
  refine ⟨fun fuel r t f => (process_event_go_frozen C F P ev fuel r t f).1,
    process_event_go_once C F P ev,
    fun fuel r ex hC hex hne hev => ?_⟩
  unfold process_event
  simp only [process_event_go, hC, if_true, hex]
  rw [if_pos]
  simp [hne, hev]

theorem claim_C4_witness :
    process_event (fun _ => true) (fun r => ("b", "1") :: r)
      (fun _ _ => true) { exit := some "input" } [("final_prompt", "x")] 1 =
      .done [("b", "1"), ("final_prompt", "x")] 1 :=
  (claim_C4_fires_exactly_once (fun _ => true) (fun r => ("b", "1") :: r)
    (fun _ _ => true) { exit := some "input" }).2.2 0 [("final_prompt", "x")]
    "input" rfl rfl (by decide) rfl

theorem process_event_go_no_exit (C : Nat → Bool) (F : ResultMap → ResultMap)
    (P : String → List (String × ResultMap) → Bool) (ev : EventSpec)
    (hex : ev.exit = none) :
    ∀ fuel ro r t f, ∃ f',
      process_event_go C F P ev fuel ro r t f = .more f'
  | 0, ro, r, t, f => ⟨f, rfl⟩
  | fuel + 1, ro, r, t, f => by
      simp only [process_event_go, hex]
      by_cases hC : C t = true
      · rw [if_pos hC]
        exact process_event_go_no_exit C F P ev hex fuel false _ (t + 1) _
      · rw [if_neg hC]
        exact process_event_go_no_exit C F P ev hex fuel ro r (t + 1) f

theorem process_event_go_done_exit (C : Nat → Bool)
    (F : ResultMap → ResultMap)
    (P : String → List (String × ResultMap) → Bool) (ev : EventSpec) :
    ∀ fuel ro r t f r' f',
      process_event_go C F P ev fuel ro r t f = .done r' f' →
        ∃ ex t', ev.exit = some ex ∧ C t' = true ∧
          eval_expression P ex r' = true
  | 0, ro, r, t, f, r', f' => by
      intro h; simp [process_event_go] at h
  | fuel + 1, ro, r, t, f, r', f' => by
      intro h
      simp only [process_event_go] at h
      by_cases hC : C t = true
      · rw [if_pos hC] at h
        rcases hex : ev.exit with _ | ex
        · simp only [hex, Bool.false_eq_true, if_false, eq_self_iff_true,
            if_true] at h
          have hrec := process_event_go_done_exit C F P ev fuel false _
            (t + 1) _ r' f' h
          rw [hex] at hrec
          exact hrec
        · simp only [hex, Bool.false_eq_true, if_false, eq_self_iff_true,
            if_true] at h
          by_cases hcond :
              (ex ≠ "" && eval_expression P ex (if ro then F r else r)) = true
          · rw [if_pos hcond] at h
            cases h
            refine ⟨ex, t, rfl, hC, ?_⟩
            have hc2 := hcond
            simp only [Bool.and_eq_true] at hc2
            exact hc2.2
          · rw [if_neg hcond] at h
            have hrec := process_event_go_done_exit C F P ev fuel false _
              (t + 1) _ r' f' h
            rw [hex] at hrec
            exact hrec
      · rw [if_neg hC] at h
        have hrec := process_event_go_done_exit C F P ev fuel ro r (t + 1) f
          r' f' h
        exact hrec

/-- C10: termination of the event loop is decided by `eval_expression`, which
binds the name `input` to the current aggregate (that is its whole
definition).  First conjunct: with no declared exit expression the loop never
returns, whatever the fuel.  Second conjunct: whenever the loop returns, an
exit expression is declared, some cron-matching tick occurred and the
expression evaluated truthy on the returned aggregate.  Third conjunct: an
immediately matching cron with an exit expression truthy on the once-fired
aggregate makes `process_event` return that aggregate. -/
theorem claim_C10_exit_evaluation (C : Nat → Bool)
    (F : ResultMap → ResultMap)
    (P : String → List (String × ResultMap) → Bool) (ev : EventSpec) :
    (ev.exit = none → ∀ fuel ro r t f, ∃ f',
       process_event_go C F P ev fuel ro r t f = .more f') ∧
    (∀ fuel ro r t f r' f',
       process_event_go C F P ev fuel ro r t f = .done r' f' →
         ∃ ex t', ev.exit = some ex ∧ C t' = true ∧
           eval_expression P ex r' = true) ∧
    (∀ fuel r ex, ev.exit = some ex → ex ≠ "" → C 0 = true →
       eval_expression P ex (F r) = true →
       process_event C F P ev r (fuel + 1) = .done (F r) 1) := by
  refine ⟨process_event_go_no_exit C F P ev,
    process_event_go_done_exit C F P ev, fun fuel r ex hex hne hC hev => ?_⟩
  unfold process_event
  simp only [process_event_go, hC, if_true, hex]
  rw [if_pos]
  simp [hne, hev]

theorem claim_C10_witness :
    process_event (fun _ => true) (fun r => ("b", "1") :: r)
      (fun e env => decide (e = "input" ∧ env.length = 1))
      { exit := some "input" } [] 1 = .done [("b", "1")] 1 :=
  (claim_C10_exit_evaluation (fun _ => true) (fun r => ("b", "1") :: r)
    (fun e env => decide (e = "input" ∧ env.length = 1))
    { exit := some "input" }).2.2 0 [] "input" rfl (by decide) rfl (by decide)

theorem streaming_go_err_events (R : StepOracle) (tok : TokenOracle)
    (steps : List StepDef) :
    ∀ fuel rs cur p i e evs tr,
      streaming_go R tok steps fuel rs cur p i = .err e evs tr →
        ∀ ev ∈ evs, ∃ n o j an u, ev = StreamEvent.step n o j an u
  | 0, rs, cur, p, i, e, evs, tr => by
      intro h; simp [streaming_go] at h
  | fuel + 1, rs, cur, p, i, e, evs, tr => by
      intro h ev hev
      simp only [streaming_go] at h
      rcases hdef : dget (mkStepDefs steps) cur with _ | d
      · rw [hdef] at h
        cases h
        simp at hev
      · rw [hdef] at h
        simp only at h
        rcases hrun : R cur (route_prompt_streaming rs p d) i with er | res
        · rw [hrun] at h
          cases h
          simp at hev
        · rw [hrun] at h
          simp only at h
          rcases hadv : advance steps cur res.next with n | _ | m
          · simp only [hadv] at h
            rcases ho : streaming_go R tok steps fuel (dinsert rs cur
                res.prompt) n res.prompt (i + 1) with _ | ⟨e2, evs2, tr2⟩ | _
            · rw [ho] at h
              simp only [consEvent] at h
              cases h
            · rw [ho] at h
              simp only [consEvent] at h
              cases h
              simp only [List.mem_cons] at hev
              rcases hev with rfl | hev
              · exact ⟨cur, res.prompt, i, agentNameOf d.agent,
                  tok d.agent, rfl⟩
              · exact streaming_go_err_events R tok steps fuel _ n res.prompt
                  (i + 1) _ _ _ ho ev hev
            · rw [ho] at h
              simp only [consEvent] at h
              cases h
          · simp only [hadv] at h
            cases h
          · simp only [hadv] at h
            cases h
            simp only [List.mem_cons] at hev
            rcases hev with rfl | hev
            · exact ⟨cur, res.prompt, i, agentNameOf d.agent, tok d.agent,
                rfl⟩
            · simp at hev
  termination_by fuel => fuel

theorem condition_streaming_err_events (agents : List String)
    (R : StepOracle) (tok : TokenOracle) (t : Template) (fuel : Nat)
    (e : String) (evs : List StreamEvent) (tr : List ExecRecord)
    (h : condition_streaming agents R tok t fuel = .err e evs tr) :
    ∀ ev ∈ evs, ∃ n o j an u, ev = StreamEvent.step n o j an u := by
  unfold condition_streaming at h
  rcases hb : bind_steps agents t.workflows t.steps with ⟨bound, er⟩
  rw [hb] at h
  cases er
  · cases bound with
    | nil => simp only at h; cases h; intro ev hev; simp at hev
    | cons s0 rest =>
        simp only at h
        exact streaming_go_err_events R tok (s0 :: rest) fuel [] s0.name
          t.prompt 0 e evs tr h
  · simp only at h
    cases h
    intro ev hev
    simp at hev

theorem run_def (agents : List String) (R : StepOracle) (C : Nat → Bool)
    (F : ResultMap → ResultMap)
    (P : String → List (String × ResultMap) → Bool) (t : Template)
    (prm : String) (fuel evFuel : Nat) :
    run agents R C F P t prm fuel evFuel =
      match condition agents R (apply_prompt t prm) fuel with
      | .more tr => .more tr
      | .ok res tr =>
          match (apply_prompt t prm).event with
          | some ev =>
              match process_event C F P ev res evFuel with
              | .done r _ => .ok r tr
              | .more _ => .more tr
          | none => .ok res tr
      | .err e tr =>
          match (apply_prompt t prm).exception with
          | some exc =>
              match exc.agent with
              | some a =>
                  if a ∈ agents then .handled a e (-1) tr else .raised e tr
              | none => .raised e tr
          | none => .raised e tr := rfl

theorem run_streaming_def (agents : List String) (R : StepOracle)
    (tok : TokenOracle) (t : Template) (prm : String) (fuel : Nat) :
    run_streaming agents R tok t prm fuel =
      match condition_streaming agents R tok (apply_prompt t prm) fuel with
      | .ok evs _ => .out evs []
      | .more evs _ => .more evs
      | .err e evs _ =>
          match (apply_prompt t prm).exception with
          | some exc =>
              match exc.agent with
              | some a =>
                  if a ∈ agents then .out (evs ++ [.error e]) [(a, e, -1)]
                  else .out evs []
              | none => .out evs []
          | none => .out (evs ++ [.error e]) [] := rfl

/-- C2: exception routing.  Let the walk raise error `e`.  Blocking mode:
with a declared handler agent that is bound, `run` invokes that handler with
the error as input and step index `-1` and returns `None` (`handled`); with
no declared handler the error is re-raised (`raised`).  Streaming mode: with
a declared and bound handler, the handler is invoked the same way and the
error event terminates the stream; with no handler declared the stream ends
with exactly one terminal error event, no handler call and no raise — every
earlier event of the stream is a step event. -/
theorem claim_C2_exception_routing (agents : List String) (R : StepOracle)
    (C : Nat → Bool) (F : ResultMap → ResultMap)
    (P : String → List (String × ResultMap) → Bool) (tok : TokenOracle)
    (t : Template) (prm : String) (fuel evFuel : Nat) (e : String) :
    (∀ tr a, condition agents R (apply_prompt t prm) fuel = .err e tr →
       t.exception = some ⟨some a⟩ → a ∈ agents →
       run agents R C F P t prm fuel evFuel = .handled a e (-1) tr) ∧
    (∀ tr, condition agents R (apply_prompt t prm) fuel = .err e tr →
       t.exception = none →
       run agents R C F P t prm fuel evFuel = .raised e tr) ∧
    (∀ evs tr a,
       condition_streaming agents R tok (apply_prompt t prm) fuel =
         .err e evs tr →
       t.exception = some ⟨some a⟩ → a ∈ agents →
       run_streaming agents R tok t prm fuel =
         .out (evs ++ [.error e]) [(a, e, -1)]) ∧
    (∀ evs tr,
       condition_streaming agents R tok (apply_prompt t prm) fuel =
         .err e evs tr →
       t.exception = none →
       run_streaming agents R tok t prm fuel =
         .out (evs ++ [.error e]) [] ∧
       ∀ ev ∈ evs, ∃ n o i an u, ev = StreamEvent.step n o i an u) := by
  have hexc := apply_prompt_exception t prm
  refine ⟨fun tr a hc hd hm => ?_, fun tr hc hd => ?_,
    fun evs tr a hc hd hm => ?_, fun evs tr hc hd => ?_⟩
  · rw [run_def, hc]
    simp only [hexc, hd]
    simp [hm]
  · rw [run_def, hc]
    simp only [hexc, hd]
  · rw [run_streaming_def, hc]
    simp only [hexc, hd]
    simp [hm]
  · constructor
    · rw [run_streaming_def, hc]
      simp only [hexc, hd]
    · exact fun ev hev =>
        condition_streaming_err_events agents R tok (apply_prompt t prm)
          fuel e evs tr hc ev hev

theorem claim_C2_witness :
    run ["h"] (fun _ _ _ => Except.error "boom") (fun _ => false)
      (fun r => r) (fun _ _ => false)
      { prompt := "p", steps := [{ name := "s" }],
        exception := some ⟨some "h"⟩ } "" 1 0 =
      .handled "h" "boom" (-1) [] :=
  (claim_C2_exception_routing ["h"] (fun _ _ _ => Except.error "boom")
    (fun _ => false) (fun r => r) (fun _ _ => false) (fun _ => none)
    { prompt := "p", steps := [{ name := "s" }],
      exception := some ⟨some "h"⟩ } "" 1 0 "boom").1 [] "h" (by decide)
    rfl (by decide)

/-- C5 counterexample: a two-step workflow where step `s2` declares
`from = ["agentX"]` and `agentX` is the bound agent name of completed step
`s1` with recorded output `OUT1`.  The source `agentX` is neither `prompt`
nor a step name present in the results, so the claim requires the literal
fallback `agentX`; the code resolves it to `OUT1` through the agent-name
scan (the trace shows `s2` received `OUT1`). -/
theorem claim_C5_counterexample :
    condition ["agentX"]
      (fun s p _ =>
        Except.ok { prompt := if s = "s1" then "OUT1" else p, next := none })
      { prompt := "P",
        steps := [{ name := "s1", agent := some (.name "agentX") },
                  { name := "s2", fromSources := some ["agentX"] }] } 5 =
      .ok [("final_prompt", "OUT1"), ("s1", "OUT1"), ("s2", "OUT1")]
        [⟨"s1", "P", 0⟩, ⟨"s2", "OUT1", 1⟩] ∧
    dget [("s1", "OUT1")] "agentX" = none ∧
    ("OUT1" : String) ≠ "agentX" := by decide

/-- C5, amended: a `from` source resolves to the initial prompt when it is
the string `prompt`; to a completed step's recorded output when it is a step
name present in the results; otherwise the declared steps are scanned for the
first one whose bound agent matches the source, and when such a step exists
(with a truthy name) and has completed, its recorded output is used; in every
remaining case the source string itself is the literal value.  A single
resolved source is used verbatim with no joining; several are joined with the
separator of one blank line, skipping empty values; in particular
`from = ["prompt", "stepA"]` with initial prompt `A` and completed `stepA`
output `B` resolves to `A`, a blank line, `B`. -/
theorem claim_C5_from_resolution (defs : List (String × StepDef))
    (results : List (String × String)) (base source : String) :
    (source = "prompt" → resolve_source defs results base source = base) ∧
    (source ≠ "prompt" → ∀ v, dget results source = some v →
       resolve_source defs results base source = v) ∧
    (source ≠ "prompt" → dget results source = none →
       defs.find? (fun p => agent_matches source p.2.agent) = none →
       resolve_source defs results base source = source) ∧
    (source ≠ "prompt" → dget results source = none →
       ∀ sn sd,
         defs.find? (fun p => agent_matches source p.2.agent) =
           some (sn, sd) → sn ≠ "" →
         ((∀ v, dget results sn = some v →
             resolve_source defs results base source = v) ∧
          (dget results sn = none →
             resolve_source defs results base source = source))) ∧
    (∀ x, join_inputs [x] = x) ∧
    (∀ xs, xs.length ≠ 1 →
       join_inputs xs =
         String.intercalate "\n\n" (xs.filter fun s => s ≠ "")) ∧
    join_inputs (["prompt", "stepA"].map
      (resolve_source [] [("stepA", "B")] "A")) = "A\n\nB" := by
    refine ⟨fun hp => ?_, fun hp v hv => ?_, fun hp hv hf => ?_,
      fun hp hv sn sd hf hsn => ⟨fun v hsv => ?_, fun hsv => ?_⟩,
      fun x => rfl, fun xs hlen => ?_, by decide⟩
    · simp [resolve_source, hp]
    · simp [resolve_source, hp, hv]
    · simp [resolve_source, hp, hv, hf]
    · simp [resolve_source, hp, hv, hf, hsn, hsv]
    · simp [resolve_source, hp, hv, hf, hsn, hsv]
    · cases xs with
      | nil => rfl
      | cons x rest =>
          cases rest with
          | nil => simp at hlen
          | cons y rest2 => rfl

theorem claim_C5_witness :
    resolve_source [] [("stepA", "B")] "A" "stepA" = "B" :=
  (claim_C5_from_resolution [] [("stepA", "B")] "A" "stepA").2.1
    (by decide) "B" rfl

/-- C6 counterexample: a two-step workflow whose second step declares
`from = ["prompt"]`, with initial prompt `A` and first-step output `B`.  In
the streaming walk, step `s2` receives `B` — the rolling prompt, not the
original initial prompt — while the blocking walk resolves the same source
to `A`. -/
theorem claim_C6_counterexample :
    condition_streaming []
      (fun s p _ =>
        Except.ok { prompt := if s = "s1" then "B" else p, next := none })
      (fun _ => none)
      { prompt := "A",
        steps := [{ name := "s1" },
                  { name := "s2", fromSources := some ["prompt"] }] } 5 =
      .ok [.step "s1" "B" 0 none none, .step "s2" "B" 1 none none,
           .final [("final_prompt", "B"), ("s1", "B"), ("s2", "B")]]
        [⟨"s1", "A", 0⟩, ⟨"s2", "B", 1⟩] ∧
    condition []
      (fun s p _ =>
        Except.ok { prompt := if s = "s1" then "B" else p, next := none })
      { prompt := "A",
        steps := [{ name := "s1" },
                  { name := "s2", fromSources := some ["prompt"] }] } 5 =
      .ok [("final_prompt", "A"), ("s1", "B"), ("s2", "A")]
        [⟨"s1", "A", 0⟩, ⟨"s2", "A", 1⟩] ∧
    ("B" : String) ≠ "A" := by decide

theorem condition_go_prompt_source (R : StepOracle) (steps : List StepDef)
    (IP : String) :
    ∀ fuel rs cur p i r,
      r ∈ outTrace (condition_go R steps IP fuel rs cur p i) →
      ∀ d, dget (mkStepDefs steps) r.step = some d →
        from_list d = some ["prompt"] → r.input = IP
  | 0, rs, cur, p, i, r => by
      intro hr
      simp [condition_go, outTrace] at hr
  | fuel + 1, rs, cur, p, i, r => by
      intro hr d hd hfrom
      simp only [condition_go] at hr
      rcases hdef : dget (mkStepDefs steps) cur with _ | defn
      · rw [hdef] at hr
        simp [outTrace] at hr
      · rw [hdef] at hr
        simp only at hr
        rcases hrun : R cur (route_prompt (mkStepDefs steps) rs IP p defn) i
          with er | res
        · rw [hrun] at hr
          simp [outTrace] at hr
        · rw [hrun] at hr
          simp only at hr
          rcases hadv : advance steps cur res.next with n | _ | m
          · simp only [hadv, outTrace_consTrace, List.mem_cons] at hr
            rcases hr with rfl | hr
            · simp only at hd
              rw [hdef] at hd
              cases hd
              simp only [route_prompt, hfrom, List.map_cons, List.map_nil,
                join_inputs, resolve_source, eq_self_iff_true, if_true]
            · exact condition_go_prompt_source R steps IP fuel _ n res.prompt
                (i + 1) r hr d hd hfrom
          · simp only [hadv, outTrace] at hr
            simp only [List.mem_singleton] at hr
            subst hr
            simp only at hd
            rw [hdef] at hd
            cases hd
            simp only [route_prompt, hfrom, List.map_cons, List.map_nil,
              join_inputs, resolve_source, eq_self_iff_true, if_true]
          · simp only [hadv, outTrace] at hr
            simp only [List.mem_singleton] at hr
            subst hr
            simp only at hd
            rw [hdef] at hd
            cases hd
            simp only [route_prompt, hfrom, List.map_cons, List.map_nil,
              join_inputs, resolve_source, eq_self_iff_true, if_true]
  termination_by fuel => fuel

theorem streaming_go_prompt_chain (R : StepOracle) (tok : TokenOracle)
    (steps : List StepDef) :
    ∀ fuel rs cur p i,
      stream_prompt_chain R (mkStepDefs steps) p
        (outTraceS (streaming_go R tok steps fuel rs cur p i))
  | 0, rs, cur, p, i => by
      simp [streaming_go, outTraceS, stream_prompt_chain]
  | fuel + 1, rs, cur, p, i => by
      simp only [streaming_go]
      rcases hdef : dget (mkStepDefs steps) cur with _ | defn
      · simp [outTraceS, stream_prompt_chain]
      · simp only []
        rcases hrun : R cur (route_prompt_streaming rs p defn) i with er | res
        · simp [outTraceS, stream_prompt_chain]
        · simp only []
          rcases hadv : advance steps cur res.next with n | _ | m
          · simp only [outTraceS_consEvent]
            refine ⟨fun d hd hfrom => ?_, fun res' hres' => ?_⟩
            · rw [hdef] at hd
              cases hd
              simp only [route_prompt_streaming, hfrom, List.map_cons,
                List.map_nil, join_inputs, resolve_source_streaming,
                eq_self_iff_true, if_true]
            · rw [hrun] at hres'
              cases hres'
              exact streaming_go_prompt_chain R tok steps fuel _ n res.prompt
                (i + 1)
          · simp only [outTraceS]
            refine ⟨fun d hd hfrom => ?_, fun res' hres' => ?_⟩
            · rw [hdef] at hd
              cases hd
              simp only [route_prompt_streaming, hfrom, List.map_cons,
                List.map_nil, join_inputs, resolve_source_streaming,
                eq_self_iff_true, if_true]
            · exact trivial
          · simp only [outTraceS]
            refine ⟨fun d hd hfrom => ?_, fun res' hres' => ?_⟩
            · rw [hdef] at hd
              cases hd
              simp only [route_prompt_streaming, hfrom, List.map_cons,
                List.map_nil, join_inputs, resolve_source_streaming,
                eq_self_iff_true, if_true]
            · exact trivial
  termination_by fuel => fuel

/-- C6, amended: in the blocking walk a `from` source named `prompt` always
resolves to the walk's original initial prompt, whatever has executed
before; in the streaming walk the same source resolves to the current
rolling prompt — the initial prompt only for the first executed step, and
afterwards the previous completed step's output. -/
theorem claim_C6_prompt_source (agents : List String) (R : StepOracle)
    (tok : TokenOracle) (t : Template) (fuel : Nat) :
    (∀ r ∈ outTrace (condition agents R t fuel),
       ∀ d, dget (mkStepDefs (bind_steps agents t.workflows t.steps).1)
           r.step = some d →
         from_list d = some ["prompt"] → r.input = t.prompt) ∧
    stream_prompt_chain R
      (mkStepDefs (bind_steps agents t.workflows t.steps).1) t.prompt
      (outTraceS (condition_streaming agents R tok t fuel)) := by
  constructor
  · intro r hr d hd hfrom
    unfold condition at hr
    rcases hb : bind_steps agents t.workflows t.steps with ⟨bound, er⟩
    rw [hb] at hr hd
    cases er
    · cases bound with
      | nil => simp [outTrace] at hr
      | cons s0 rest =>
          simp only at hr
          exact condition_go_prompt_source R (s0 :: rest) t.prompt fuel []
            s0.name t.prompt 0 r hr d hd hfrom
    · simp [outTrace] at hr
  · unfold condition_streaming
    rcases hb : bind_steps agents t.workflows t.steps with ⟨bound, er⟩
    cases er
    · cases bound with
      | nil => simp [outTraceS, stream_prompt_chain]
      | cons s0 rest =>
          simp only
          exact streaming_go_prompt_chain R tok (s0 :: rest) fuel []
            s0.name t.prompt 0
    · simp [outTraceS, stream_prompt_chain]

theorem claim_C6_witness :
    (⟨"s", "A", 0⟩ : ExecRecord).input = "A" := by
  have h := (claim_C6_prompt_source [] (pureOracle fun _ p _ => p)
    (fun _ => none)
    { prompt := "A",
      steps := [{ name := "s", fromSources := some ["prompt"] }] } 3).1
  exact h ⟨"s", "A", 0⟩ (by decide)
    { name := "s", fromSources := some ["prompt"] } (by decide) (by decide)

theorem getLast?_mem_of_eq {α : Type} (l : List α) (a : α)
    (h : l.getLast? = some a) : a ∈ l := by
  have hmem : a ∈ l.getLast? := Option.mem_def.mpr h
  rcases List.mem_getLast?_eq_getLast hmem with ⟨hne, hx⟩
  rw [hx]
  exact List.getLast_mem hne

theorem dget_dinsert_cases {α : Type} (d : List (String × α))
    (k k' : String) (v' v : α) (h : dget (dinsert d k' v') k = some v) :
    k = k' ∨ dget d k = some v := by
  by_cases hk : k = k'
  · exact Or.inl hk
  · right
    rwa [dget_dinsert_ne d k k' v' hk] at h

theorem mkStepDefs_keys (steps : List StepDef) :
    ∀ acc k v,
      dget (steps.foldl (fun d s => dinsert d s.name s) acc) k = some v →
        (∃ v', dget acc k = some v') ∨ k ∈ steps.map StepDef.name := by
  induction steps with
  | nil => exact fun acc k v h => Or.inl ⟨v, h⟩
  | cons s rest ih =>
      intro acc k v h
      simp only [List.foldl_cons] at h
      rcases ih (dinsert acc s.name s) k v h with ⟨v', hv'⟩ | hmem
      · rcases dget_dinsert_cases acc k s.name s v' hv' with hk | hacc
        · right; simp [hk]
        · exact Or.inl ⟨v', hacc⟩
      · right; simp [hmem]

theorem dget_mkStepDefs_mem (steps : List StepDef) (k : String) (v : StepDef)
    (h : dget (mkStepDefs steps) k = some v) :
    k ∈ steps.map StepDef.name := by
  rcases mkStepDefs_keys steps [] k v h with ⟨v', hv'⟩ | hmem
  · simp [dget] at hv'
  · exact hmem

theorem find_index_of_mem (steps : List StepDef) (k : String)
    (h : k ∈ steps.map StepDef.name) :
    ∃ i, find_index steps k = some i := by
  induction steps with
  | nil => simp at h
  | cons s rest ih =>
      by_cases hs : s.name = k
      · exact ⟨0, by simp [find_index, hs]⟩
      · simp only [List.map_cons, List.mem_cons] at h
        rcases h with h | h
        · exact absurd h.symm hs
        · rcases ih h with ⟨j, hj⟩
          exact ⟨j + 1, by simp [find_index, hs, hj]⟩

theorem find_index_cons (s : StepDef) (rest : List StepDef) (k : String) :
    find_index (s :: rest) k =
      if s.name = k then some 0 else (find_index rest k).map (· + 1) := rfl

theorem getLast_find_index (steps : List StepDef) (cur : String)
    (hn : (steps.map StepDef.name).Nodup)
    (hl : steps.getLast?.map StepDef.name = some cur) :
    ∀ i, find_index steps cur = some i → steps[i + 1]? = none := by
  induction steps with
  | nil => simp at hl
  | cons s rest ih =>
      intro i hi
      cases rest with
      | nil =>
          have hl' : s.name = cur := by simpa using hl
          rw [find_index_cons, if_pos hl'] at hi
          cases hi
          rfl
      | cons s2 rest2 =>
          have hl2 : (s2 :: rest2).getLast?.map StepDef.name = some cur := by
            rwa [List.getLast?_cons_cons] at hl
          have hcurmem : cur ∈ (s2 :: rest2).map StepDef.name := by
            rcases hg : (s2 :: rest2).getLast? with _ | g
            · rw [hg] at hl2; simp at hl2
            · rw [hg] at hl2
              simp only [Option.map_some', Option.some_inj] at hl2
              exact hl2 ▸ List.mem_map_of_mem StepDef.name
                (getLast?_mem_of_eq _ g hg)
          have hs_ne : s.name ≠ cur := by
            intro hEq
            have hnotin : s.name ∉ (s2 :: rest2).map StepDef.name :=
              (List.nodup_cons.mp hn).1
            rw [hEq] at hnotin
            exact hnotin hcurmem
          rw [find_index_cons, if_neg hs_ne] at hi
          rcases hfi : find_index (s2 :: rest2) cur with _ | j
          · rw [hfi] at hi; simp at hi
          · rw [hfi] at hi
            simp only [Option.map_some', Option.some_inj] at hi
            subst hi
            have hrest := ih (List.nodup_cons.mp hn).2 hl2 j hfi
            simpa [List.getElem?_cons_succ] using hrest

theorem find_index_last (steps : List StepDef) (cur : String) :
    ∀ i, find_index steps cur = some i → steps[i + 1]? = none →
      steps.getLast?.map StepDef.name = some cur := by
  induction steps with
  | nil => intro i hi; simp [find_index] at hi
  | cons s rest ih =>
      intro i hi hnone
      by_cases hs : s.name = cur
      · rw [find_index_cons, if_pos hs] at hi
        cases hi
        cases rest with
        | nil => simpa using hs
        | cons a b => simp [List.getElem?_cons_succ] at hnone
      · rw [find_index_cons, if_neg hs] at hi
        rcases hfi : find_index rest cur with _ | j
        · rw [hfi] at hi; simp at hi
        · rw [hfi] at hi
          simp only [Option.map_some', Option.some_inj] at hi
          subst hi
          have hrest := ih j hfi
            (by simpa [List.getElem?_cons_succ] using hnone)
          cases rest with
          | nil => simp [find_index] at hfi
          | cons a b => rwa [List.getLast?_cons_cons]

theorem advance_next_spec (steps : List StepDef) (cur n : String)
    (res : StepResult) (h : advance steps cur res.next = .next n) :
    spec_next_step steps cur res = some n := by
  rcases hnx : res.next with _ | m
  · rw [hnx] at h
    simp only [advance] at h
    by_cases hl : steps.getLast?.map StepDef.name = some cur
    · rw [if_pos hl] at h
      exact Advance.noConfusion h
    · rw [if_neg hl] at h
      rcases hfi : find_index steps cur with _ | i
      · rw [hfi] at h
        exact Advance.noConfusion h
      · rw [hfi] at h
        simp only at h
        rcases hsucc : steps[i + 1]? with _ | s
        · rw [hsucc] at h
          exact Advance.noConfusion h
        · rw [hsucc] at h
          simp only at h
          cases h
          simp [spec_next_step, hnx, hfi, hsucc]
  · rw [hnx] at h
    have h' : Advance.next m = Advance.next n := h
    cases h'
    simp [spec_next_step, hnx]

theorem advance_stop_spec (steps : List StepDef) (cur : String)
    (res : StepResult) (hn : (steps.map StepDef.name).Nodup)
    (h : advance steps cur res.next = .stop) :
    spec_next_step steps cur res = none := by
  rcases hnx : res.next with _ | m
  · rw [hnx] at h
    simp only [advance] at h
    by_cases hl : steps.getLast?.map StepDef.name = some cur
    · rcases hfi : find_index steps cur with _ | i
      · simp [spec_next_step, hnx, hfi]
      · have hnone := getLast_find_index steps cur hn hl i hfi
        simp [spec_next_step, hnx, hfi, hnone]
    · rw [if_neg hl] at h
      rcases hfi : find_index steps cur with _ | i
      · rw [hfi] at h
        exact Advance.noConfusion h
      · rw [hfi] at h
        simp only at h
        rcases hsucc : steps[i + 1]? with _ | s
        · rw [hsucc] at h
          exact Advance.noConfusion h
        · rw [hsucc] at h
          simp only at h
          exact Advance.noConfusion h
  · rw [hnx] at h
    have h' : Advance.next m = Advance.stop := h
    exact Advance.noConfusion h'

theorem advance_not_fail (steps : List StepDef) (cur : String)
    (o : Option String) (m : String)
    (hmem : cur ∈ steps.map StepDef.name) :
    advance steps cur o ≠ .fail m := by
  intro h
  rcases o with _ | nx
  · simp only [advance] at h
    by_cases hl : steps.getLast?.map StepDef.name = some cur
    · rw [if_pos hl] at h
      exact Advance.noConfusion h
    · rw [if_neg hl] at h
      rcases hfi : find_index steps cur with _ | i
      · rcases find_index_of_mem steps cur hmem with ⟨j, hj⟩
        rw [hfi] at hj
        exact Option.noConfusion hj
      · rw [hfi] at h
        simp only at h
        rcases hsucc : steps[i + 1]? with _ | s
        · rw [hsucc] at h
          exact hl (find_index_last steps cur i hfi hsucc)
        · rw [hsucc] at h
          simp only at h
          exact Advance.noConfusion h
  · have h' : Advance.next nx = Advance.fail m := h
    exact Advance.noConfusion h'

theorem condition_go_head (R : StepOracle) (steps : List StepDef)
    (IP : String) (fuel : Nat) (rs : List (String × String)) (cur p : String)
    (i : Nat) (r : ExecRecord) (rest : List ExecRecord)
    (h : outTrace (condition_go R steps IP fuel rs cur p i) = r :: rest) :
    r.step = cur := by
  cases fuel with
  | zero => simp [condition_go, outTrace] at h
  | succ fuel =>
      simp only [condition_go] at h
      rcases hdef : dget (mkStepDefs steps) cur with _ | d
      · rw [hdef] at h
        simp [outTrace] at h
      · rw [hdef] at h
        simp only at h
        rcases hrun : R cur (route_prompt (mkStepDefs steps) rs IP p d) i
          with er | res
        · rw [hrun] at h
          simp [outTrace] at h
        · rw [hrun] at h
          simp only at h
          rcases hadv : advance steps cur res.next with n | _ | m
          · simp only [hadv, outTrace_consTrace] at h
            cases h
            rfl
          · simp only [hadv, outTrace] at h
            cases h
            rfl
          · simp only [hadv, outTrace] at h
            cases h
            rfl

theorem condition_go_ok_ne_nil (R : StepOracle) (steps : List StepDef)
    (IP : String) (fuel : Nat) (rs : List (String × String)) (cur p : String)
    (i : Nat) (res0 : List (String × String)) (tr : List ExecRecord)
    (h : condition_go R steps IP fuel rs cur p i = .ok res0 tr) :
    tr ≠ [] := by
  cases fuel with
  | zero => exact absurd h (by simp [condition_go])
  | succ fuel =>
      simp only [condition_go] at h
      rcases hdef : dget (mkStepDefs steps) cur with _ | d
      · rw [hdef] at h
        exact CondOut.noConfusion h
      · rw [hdef] at h
        simp only at h
        rcases hrun : R cur (route_prompt (mkStepDefs steps) rs IP p d) i
          with er | res
        · rw [hrun] at h
          exact CondOut.noConfusion h
        · rw [hrun] at h
          simp only at h
          rcases hadv : advance steps cur res.next with n | _ | m
          · rw [hadv] at h
            simp only at h
            rcases ho : condition_go R steps IP fuel
                (dinsert rs cur res.prompt) n res.prompt (i + 1)
              with ⟨resI, trI⟩ | ⟨eI, trI⟩ | trI
            · rw [ho] at h
              simp only [consTrace] at h
              cases h
              simp
            · rw [ho] at h
              simp only [consTrace] at h
              exact CondOut.noConfusion h
            · rw [ho] at h
              simp only [consTrace] at h
              exact CondOut.noConfusion h
          · rw [hadv] at h
            simp only at h
            cases h
            simp
          · rw [hadv] at h
            simp only at h
            exact CondOut.noConfusion h

theorem condition_go_trace_follows (R : StepOracle) (steps : List StepDef)
    (IP : String) (hn : (steps.map StepDef.name).Nodup) :
    ∀ fuel rs cur p i,
      trace_follows R steps
        (outTrace (condition_go R steps IP fuel rs cur p i))
        (isOk (condition_go R steps IP fuel rs cur p i))
  | 0, rs, cur, p, i => by
      refine ⟨trivial, fun r hr => Option.noConfusion hr⟩
  | fuel + 1, rs, cur, p, i => by
      have IHf := fun rs' cur' p' i' =>
        condition_go_trace_follows R steps IP hn fuel rs' cur' p' i'
      simp only [condition_go]
      rcases hdef : dget (mkStepDefs steps) cur with _ | d
      · exact ⟨trivial, fun r hr => Option.noConfusion hr⟩
      · simp only
        rcases hrun : R cur (route_prompt (mkStepDefs steps) rs IP p d) i
          with er | res
        · exact ⟨trivial, fun r hr => Option.noConfusion hr⟩
        · simp only
          rcases hadv : advance steps cur res.next with n | _ | m
          · simp only [outTrace_consTrace, isOk_consTrace]
            have IH := IHf (dinsert rs cur res.prompt) n res.prompt (i + 1)
            constructor
            · rcases hT : outTrace (condition_go R steps IP fuel
                  (dinsert rs cur res.prompt) n res.prompt (i + 1))
                with _ | ⟨r2, restT⟩
              · exact trivial
              · refine ⟨fun res' hres' => ?_, ?_⟩
                · have hres'' :
                      R cur (route_prompt (mkStepDefs steps) rs IP p d) i =
                        Except.ok res' := hres'
                  rw [hrun] at hres''
                  cases hres''
                  have hr2 : r2.step = n :=
                    condition_go_head R steps IP fuel _ n res.prompt (i + 1)
                      r2 restT hT
                  have hspec := advance_next_spec steps cur n res hadv
                  show spec_next_step steps cur res = some r2.step
                  rw [hr2, hspec]
                · have hfs := IH.1
                  rwa [hT] at hfs
            · intro r hr res' hres'
              rcases hT : outTrace (condition_go R steps IP fuel
                  (dinsert rs cur res.prompt) n res.prompt (i + 1))
                with _ | ⟨r2, restT⟩
              · rw [hT] at hr
                have hr' : some (⟨cur,
                    route_prompt (mkStepDefs steps) rs IP p d, i⟩ :
                      ExecRecord) = some r := hr
                cases hr'
                have hres'' :
                    R cur (route_prompt (mkStepDefs steps) rs IP p d) i =
                      Except.ok res' := hres'
                rw [hrun] at hres''
                cases hres''
                have hspec := advance_next_spec steps cur n res hadv
                have hnotok : isOk (condition_go R steps IP fuel
                    (dinsert rs cur res.prompt) n res.prompt (i + 1)) =
                      false := by
                  rcases hoi : condition_go R steps IP fuel
                      (dinsert rs cur res.prompt) n res.prompt (i + 1)
                    with ⟨resI, trI⟩ | ⟨eI, trI⟩ | trI
                  · exfalso
                    apply condition_go_ok_ne_nil R steps IP fuel
                      (dinsert rs cur res.prompt) n res.prompt (i + 1)
                      resI trI hoi
                    rw [hoi] at hT
                    exact hT
                  · rfl
                  · rfl
                show spec_next_step steps cur res = none ↔ _ = true
                rw [hspec, hnotok]
                simp
              · rw [hT] at hr
                rw [List.getLast?_cons_cons] at hr
                exact IH.2 r (by rw [hT]; exact hr) res' hres'
          · refine ⟨trivial, fun r hr res' hres' => ?_⟩
            have hr' : some (⟨cur,
                route_prompt (mkStepDefs steps) rs IP p d, i⟩ :
                  ExecRecord) = some r := hr
            cases hr'
            have hres'' :
                R cur (route_prompt (mkStepDefs steps) rs IP p d) i =
                  Except.ok res' := hres'
            rw [hrun] at hres''
            cases hres''
            have hspec := advance_stop_spec steps cur res hn hadv
            show spec_next_step steps cur res = none ↔ _ = true
            rw [hspec]
            simp [isOk]
          · exact absurd hadv (advance_not_fail steps cur res.next m
              (dget_mkStepDefs_mem steps cur d hdef))
  termination_by fuel => fuel

theorem streaming_go_head (R : StepOracle) (tok : TokenOracle)
    (steps : List StepDef) (fuel : Nat) (rs : List (String × String))
    (cur p : String) (i : Nat) (r : ExecRecord) (rest : List ExecRecord)
    (h : outTraceS (streaming_go R tok steps fuel rs cur p i) = r :: rest) :
    r.step = cur := by
  cases fuel with
  | zero => simp [streaming_go, outTraceS] at h
  | succ fuel =>
      simp only [streaming_go] at h
      rcases hdef : dget (mkStepDefs steps) cur with _ | d
      · rw [hdef] at h
        simp [outTraceS] at h
      · rw [hdef] at h
        simp only at h
        rcases hrun : R cur (route_prompt_streaming rs p d) i with er | res
        · rw [hrun] at h
          simp [outTraceS] at h
        · rw [hrun] at h
          simp only at h
          rcases hadv : advance steps cur res.next with n | _ | m
          · simp only [hadv, outTraceS_consEvent] at h
            cases h
            rfl
          · simp only [hadv, outTraceS] at h
            cases h
            rfl
          · simp only [hadv, outTraceS] at h
            cases h
            rfl

theorem streaming_go_ok_ne_nil (R : StepOracle) (tok : TokenOracle)
    (steps : List StepDef) (fuel : Nat) (rs : List (String × String))
    (cur p : String) (i : Nat) (evs : List StreamEvent)
    (tr : List ExecRecord)
    (h : streaming_go R tok steps fuel rs cur p i = .ok evs tr) :
    tr ≠ [] := by
  cases fuel with
  | zero => exact absurd h (by simp [streaming_go])
  | succ fuel =>
      simp only [streaming_go] at h
      rcases hdef : dget (mkStepDefs steps) cur with _ | d
      · rw [hdef] at h
        exact StreamOut.noConfusion h
      · rw [hdef] at h
        simp only at h
        rcases hrun : R cur (route_prompt_streaming rs p d) i with er | res
        · rw [hrun] at h
          exact StreamOut.noConfusion h
        · rw [hrun] at h
          simp only at h
          rcases hadv : advance steps cur res.next with n | _ | m
          · rw [hadv] at h
            simp only at h
            rcases ho : streaming_go R tok steps fuel
                (dinsert rs cur res.prompt) n res.prompt (i + 1)
              with ⟨evsI, trI⟩ | ⟨eI, evsI, trI⟩ | ⟨evsI, trI⟩
            · rw [ho] at h
              simp only [consEvent] at h
              cases h
              simp
            · rw [ho] at h
              simp only [consEvent] at h
              exact StreamOut.noConfusion h
            · rw [ho] at h
              simp only [consEvent] at h
              exact StreamOut.noConfusion h
          · rw [hadv] at h
            simp only at h
            cases h
            simp
          · rw [hadv] at h
            simp only at h
            exact StreamOut.noConfusion h

theorem streaming_go_trace_follows (R : StepOracle) (tok : TokenOracle)
    (steps : List StepDef) (hn : (steps.map StepDef.name).Nodup) :
    ∀ fuel rs cur p i,
      trace_follows R steps
        (outTraceS (streaming_go R tok steps fuel rs cur p i))
        (isOkS (streaming_go R tok steps fuel rs cur p i))
  | 0, rs, cur, p, i => by
      refine ⟨trivial, fun r hr => Option.noConfusion hr⟩
  | fuel + 1, rs, cur, p, i => by
      have IHf := fun rs' cur' p' i' =>
        streaming_go_trace_follows R tok steps hn fuel rs' cur' p' i'
      simp only [streaming_go]
      rcases hdef : dget (mkStepDefs steps) cur with _ | d
      · exact ⟨trivial, fun r hr => Option.noConfusion hr⟩
      · simp only
        rcases hrun : R cur (route_prompt_streaming rs p d) i with er | res
        · exact ⟨trivial, fun r hr => Option.noConfusion hr⟩
        · simp only
          rcases hadv : advance steps cur res.next with n | _ | m
          · simp only [outTraceS_consEvent, isOkS_consEvent]
            have IH := IHf (dinsert rs cur res.prompt) n res.prompt (i + 1)
            constructor
            · rcases hT : outTraceS (streaming_go R tok steps fuel
                  (dinsert rs cur res.prompt) n res.prompt (i + 1))
                with _ | ⟨r2, restT⟩
              · exact trivial
              · refine ⟨fun res' hres' => ?_, ?_⟩
                · have hres'' :
                      R cur (route_prompt_streaming rs p d) i =
                        Except.ok res' := hres'
                  rw [hrun] at hres''
                  cases hres''
                  have hr2 : r2.step = n :=
                    streaming_go_head R tok steps fuel _ n res.prompt (i + 1)
                      r2 restT hT
                  have hspec := advance_next_spec steps cur n res hadv
                  show spec_next_step steps cur res = some r2.step
                  rw [hr2, hspec]
                · have hfs := IH.1
                  rwa [hT] at hfs
            · intro r hr res' hres'
              rcases hT : outTraceS (streaming_go R tok steps fuel
                  (dinsert rs cur res.prompt) n res.prompt (i + 1))
                with _ | ⟨r2, restT⟩
              · rw [hT] at hr
                have hr' : some (⟨cur, route_prompt_streaming rs p d, i⟩ :
                    ExecRecord) = some r := hr
                cases hr'
                have hres'' :
                    R cur (route_prompt_streaming rs p d) i =
                      Except.ok res' := hres'
                rw [hrun] at hres''
                cases hres''
                have hspec := advance_next_spec steps cur n res hadv
                have hnotok : isOkS (streaming_go R tok steps fuel
                    (dinsert rs cur res.prompt) n res.prompt (i + 1)) =
                      false := by
                  rcases hoi : streaming_go R tok steps fuel
                      (dinsert rs cur res.prompt) n res.prompt (i + 1)
                    with ⟨evsI, trI⟩ | ⟨eI, evsI, trI⟩ | ⟨evsI, trI⟩
                  · exfalso
                    apply streaming_go_ok_ne_nil R tok steps fuel
                      (dinsert rs cur res.prompt) n res.prompt (i + 1)
                      evsI trI hoi
                    rw [hoi] at hT
                    exact hT
                  · rfl
                  · rfl
                show spec_next_step steps cur res = none ↔ _ = true
                rw [hspec, hnotok]
                simp
              · rw [hT] at hr
                rw [List.getLast?_cons_cons] at hr
                exact IH.2 r (by rw [hT]; exact hr) res' hres'
          · refine ⟨trivial, fun r hr res' hres' => ?_⟩
            have hr' : some (⟨cur, route_prompt_streaming rs p d, i⟩ :
                ExecRecord) = some r := hr
            cases hr'
            have hres'' :
                R cur (route_prompt_streaming rs p d) i =
                  Except.ok res' := hres'
            rw [hrun] at hres''
            cases hres''
            have hspec := advance_stop_spec steps cur res hn hadv
            show spec_next_step steps cur res = none ↔ _ = true
            rw [hspec]
            simp [isOkS]
          · exact absurd hadv (advance_not_fail steps cur res.next m
              (dget_mkStepDefs_mem steps cur d hdef))
  termination_by fuel => fuel

/-- C1: for every walk of the step graph, blocking or streaming, over a
template with unique step names: each consecutive pair of completed step
executions follows the claimed rule — the next visited step is the one named
by the completed step's `next` result value when present, regardless of
declaration order, and otherwise the step immediately following the current
one in declaration order — and the walk terminates normally exactly when the
just-completed step has no `next` value and is the last declared step
(`spec_next_step`, the rule as the claim words it, yields no successor). -/
theorem claim_C1_step_sequencing (agents : List String) (R : StepOracle)
    (tok : TokenOracle) (t : Template) (fuel : Nat)
    (hn : (t.steps.map StepDef.name).Nodup) :
    trace_follows R (bind_steps agents t.workflows t.steps).1
      (outTrace (condition agents R t fuel))
      (isOk (condition agents R t fuel)) ∧
    trace_follows R (bind_steps agents t.workflows t.steps).1
      (outTraceS (condition_streaming agents R tok t fuel))
      (isOkS (condition_streaming agents R tok t fuel)) := by
  have hbn := bind_steps_names agents t.workflows t.steps
  unfold condition condition_streaming
  rcases hb : bind_steps agents t.workflows t.steps with ⟨bound, er⟩
  rw [hb] at hbn
  simp only at hbn
  have hn' : (bound.map StepDef.name).Nodup := by rw [hbn]; exact hn
  cases er
  · cases bound with
    | nil =>
        exact ⟨⟨trivial, fun r hr => Option.noConfusion hr⟩,
          ⟨trivial, fun r hr => Option.noConfusion hr⟩⟩
    | cons s0 rest =>
        exact ⟨condition_go_trace_follows R (s0 :: rest) t.prompt hn' fuel
            [] s0.name t.prompt 0,
          streaming_go_trace_follows R tok (s0 :: rest) hn' fuel
            [] s0.name t.prompt 0⟩
  · exact ⟨⟨trivial, fun r hr => Option.noConfusion hr⟩,
      ⟨trivial, fun r hr => Option.noConfusion hr⟩⟩

theorem claim_C1_witness :
    trace_follows (pureOracle fun _ p _ => p)
      (bind_steps [] [] [{ name := "a" }, { name := "b" }]).1
      (outTrace (condition [] (pureOracle fun _ p _ => p)
        { prompt := "P", steps := [{ name := "a" }, { name := "b" }] } 5))
      (isOk (condition [] (pureOracle fun _ p _ => p)
        { prompt := "P", steps := [{ name := "a" }, { name := "b" }] } 5)) ∧
    trace_follows (pureOracle fun _ p _ => p)
      (bind_steps [] [] [{ name := "a" }, { name := "b" }]).1
      (outTraceS (condition_streaming [] (pureOracle fun _ p _ => p)
        (fun _ => none)
        { prompt := "P", steps := [{ name := "a" }, { name := "b" }] } 5))
      (isOkS (condition_streaming [] (pureOracle fun _ p _ => p)
        (fun _ => none)
        { prompt := "P", steps := [{ name := "a" }, { name := "b" }] } 5)) :=
  claim_C1_step_sequencing [] (pureOracle fun _ p _ => p) (fun _ => none)
    { prompt := "P", steps := [{ name := "a" }, { name := "b" }] } 5
    (by decide)

theorem condition_go_step_linear (f : String → String → Nat → String)
    (steps : List StepDef) (IP : String) (fuel : Nat)
    (rs : List (String × String)) (cur p : String) (i : Nat) (d : StepDef)
    (hdef : dget (mkStepDefs steps) cur = some d)
    (hfrom : from_list d = none) :
    condition_go (pureOracle f) steps IP (fuel + 1) rs cur p i =
      match advance steps cur none with
      | .next n =>
          consTrace ⟨cur, p, i⟩
            (condition_go (pureOracle f) steps IP fuel
              (dinsert rs cur (f cur p i)) n (f cur p i) (i + 1))
      | .stop =>
          .ok (mkFinal (f cur p i) (dinsert rs cur (f cur p i))) [⟨cur, p, i⟩]
      | .fail m => .err m [⟨cur, p, i⟩] := by
  simp only [condition_go, hdef, pureOracle, route_prompt, hfrom]

theorem streaming_go_step_linear (f : String → String → Nat → String)
    (tok : TokenOracle) (steps : List StepDef) (fuel : Nat)
    (rs : List (String × String)) (cur p : String) (i : Nat) (d : StepDef)
    (hdef : dget (mkStepDefs steps) cur = some d)
    (hfrom : from_list d = none) :
    streaming_go (pureOracle f) tok steps (fuel + 1) rs cur p i =
      match advance steps cur none with
      | .next n =>
          consEvent
            (.step cur (f cur p i) i (agentNameOf d.agent) (tok d.agent))
            ⟨cur, p, i⟩
            (streaming_go (pureOracle f) tok steps fuel
              (dinsert rs cur (f cur p i)) n (f cur p i) (i + 1))
      | .stop =>
          .ok [.step cur (f cur p i) i (agentNameOf d.agent) (tok d.agent),
               .final (mkFinal (f cur p i) (dinsert rs cur (f cur p i)))]
            [⟨cur, p, i⟩]
      | .fail m =>
          .err m
            [.step cur (f cur p i) i (agentNameOf d.agent) (tok d.agent)]
            [⟨cur, p, i⟩] := by
  simp only [streaming_go, hdef, pureOracle, route_prompt_streaming, hfrom]

/-- C3: a three-step linear workflow (no `next` jumps — every step is a plain
deterministic function of its input — no `from` routing, and no event).
`run_streaming` yields exactly three step events, one per step in declaration
order, each carrying the step name, the step output, the step index and the
bound agent name (with the agent's token counters when exposed), followed by
exactly one terminal `final_result` event whose map is exactly the aggregate
that blocking `run` returns on the same workflow: `final_prompt` mapped to
the last output, plus every step name mapped to its output. -/
theorem claim_C3_streaming_matches_run (agents : List String)
    (f : String → String → Nat → String) (tok : TokenOracle)
    (C : Nat → Bool) (F : ResultMap → ResultMap)
    (P : String → List (String × ResultMap) → Bool)
    (t : Template) (prm : String) (b1 b2 b3 : StepDef)
    (hb : bind_steps agents t.workflows t.steps = ([b1, b2, b3], none))
    (h12 : b1.name ≠ b2.name) (h13 : b1.name ≠ b3.name)
    (h23 : b2.name ≠ b3.name)
    (hf1 : from_list b1 = none) (hf2 : from_list b2 = none)
    (hf3 : from_list b3 = none) (hev : t.event = none)
    (fuel fuel2 evFuel : Nat) :
    let p0 := (apply_prompt t prm).prompt
    let o1 := f b1.name p0 0
    let o2 := f b2.name o1 1
    let o3 := f b3.name o2 2
    let m := mkFinal o3 [(b1.name, o1), (b2.name, o2), (b3.name, o3)]
    run_streaming agents (pureOracle f) tok t prm (fuel + 3) =
      .out [.step b1.name o1 0 (agentNameOf b1.agent) (tok b1.agent),
            .step b2.name o2 1 (agentNameOf b2.agent) (tok b2.agent),
            .step b3.name o3 2 (agentNameOf b3.agent) (tok b3.agent),
            .final m] [] ∧
    run agents (pureOracle f) C F P t prm (fuel2 + 3) evFuel =
      .ok m [⟨b1.name, p0, 0⟩, ⟨b2.name, o1, 1⟩, ⟨b3.name, o2, 2⟩] := by
  have hevent : (apply_prompt t prm).event = none := by
    rw [apply_prompt_event]; exact hev
  have hb' : bind_steps agents (apply_prompt t prm).workflows
      (apply_prompt t prm).steps = ([b1, b2, b3], none) := by
    rw [apply_prompt_workflows, apply_prompt_steps]; exact hb
  have hm : mkStepDefs [b1, b2, b3] =
      [(b1.name, b1), (b2.name, b2), (b3.name, b3)] := by
    simp [mkStepDefs, dinsert, h12, h13, h23]
  have hd1 : dget (mkStepDefs [b1, b2, b3]) b1.name = some b1 := by
    rw [hm]; simp [dget, List.find?]
  have hd2 : dget (mkStepDefs [b1, b2, b3]) b2.name = some b2 := by
    rw [hm]; simp [dget, List.find?, h12]
  have hd3 : dget (mkStepDefs [b1, b2, b3]) b3.name = some b3 := by
    rw [hm]; simp [dget, List.find?, h13, h23]
  have ha1 : advance [b1, b2, b3] b1.name none = .next b2.name := by
    simp [advance, find_index, Ne.symm h13]
  have ha2 : advance [b1, b2, b3] b2.name none = .next b3.name := by
    simp [advance, find_index, Ne.symm h23, h12]
  have ha3 : advance [b1, b2, b3] b3.name none = .stop := by
    simp [advance]
  have hdi1 : ∀ v : String,
      dinsert ([] : List (String × String)) b1.name v = [(b1.name, v)] :=
    fun v => rfl
  have hdi2 : ∀ v1 v2 : String,
      dinsert [(b1.name, v1)] b2.name v2 = [(b1.name, v1), (b2.name, v2)] :=
    by intro v1 v2; simp [dinsert, h12]
  have hdi3 : ∀ v1 v2 v3 : String,
      dinsert [(b1.name, v1), (b2.name, v2)] b3.name v3 =
        [(b1.name, v1), (b2.name, v2), (b3.name, v3)] := by
    intro v1 v2 v3
    simp [dinsert, h13, h23]
  -- streaming walk, three iterations from the innermost out
  have hs3 : ∀ (fl : Nat) (v1 v2 pr : String),
      streaming_go (pureOracle f) tok [b1, b2, b3] (fl + 1)
        [(b1.name, v1), (b2.name, v2)] b3.name pr 2 =
      .ok [.step b3.name (f b3.name pr 2) 2 (agentNameOf b3.agent)
             (tok b3.agent),
           .final (mkFinal (f b3.name pr 2)
             [(b1.name, v1), (b2.name, v2), (b3.name, f b3.name pr 2)])]
        [⟨b3.name, pr, 2⟩] := by
    intro fl v1 v2 pr
    rw [streaming_go_step_linear f tok [b1, b2, b3] fl
      [(b1.name, v1), (b2.name, v2)] b3.name pr 2 b3 hd3 hf3, ha3]
    simp only [hdi3]
  have hs2 : ∀ (fl : Nat) (v1 pr : String),
      streaming_go (pureOracle f) tok [b1, b2, b3] (fl + 2)
        [(b1.name, v1)] b2.name pr 1 =
      .ok [.step b2.name (f b2.name pr 1) 1 (agentNameOf b2.agent)
             (tok b2.agent),
           .step b3.name (f b3.name (f b2.name pr 1) 2) 2
             (agentNameOf b3.agent) (tok b3.agent),
           .final (mkFinal (f b3.name (f b2.name pr 1) 2)
             [(b1.name, v1), (b2.name, f b2.name pr 1),
              (b3.name, f b3.name (f b2.name pr 1) 2)])]
        [⟨b2.name, pr, 1⟩, ⟨b3.name, f b2.name pr 1, 2⟩] := by
    intro fl v1 pr
    have e : fl + 2 = (fl + 1) + 1 := rfl
    rw [e, streaming_go_step_linear f tok [b1, b2, b3] (fl + 1)
      [(b1.name, v1)] b2.name pr 1 b2 hd2 hf2, ha2]
    simp only [hdi2, hs3, consEvent]
  have hs1 : ∀ pr : String,
      streaming_go (pureOracle f) tok [b1, b2, b3] (fuel + 3)
        [] b1.name pr 0 =
      .ok [.step b1.name (f b1.name pr 0) 0 (agentNameOf b1.agent)
             (tok b1.agent),
           .step b2.name (f b2.name (f b1.name pr 0) 1) 1
             (agentNameOf b2.agent) (tok b2.agent),
           .step b3.name (f b3.name (f b2.name (f b1.name pr 0) 1) 2) 2
             (agentNameOf b3.agent) (tok b3.agent),
           .final (mkFinal (f b3.name (f b2.name (f b1.name pr 0) 1) 2)
             [(b1.name, f b1.name pr 0),
              (b2.name, f b2.name (f b1.name pr 0) 1),
              (b3.name, f b3.name (f b2.name (f b1.name pr 0) 1) 2)])]
        [⟨b1.name, pr, 0⟩, ⟨b2.name, f b1.name pr 0, 1⟩,
         ⟨b3.name, f b2.name (f b1.name pr 0) 1, 2⟩] := by
    intro pr
    have e : fuel + 3 = (fuel + 2) + 1 := rfl
    rw [e, streaming_go_step_linear f tok [b1, b2, b3] (fuel + 2)
      [] b1.name pr 0 b1 hd1 hf1, ha1]
    simp only [hdi1, hs2, consEvent]
  have hcs : condition_streaming agents (pureOracle f) tok
      (apply_prompt t prm) (fuel + 3) =
      .ok [.step b1.name (f b1.name (apply_prompt t prm).prompt 0) 0
             (agentNameOf b1.agent) (tok b1.agent),
           .step b2.name
             (f b2.name (f b1.name (apply_prompt t prm).prompt 0) 1) 1
             (agentNameOf b2.agent) (tok b2.agent),
           .step b3.name (f b3.name (f b2.name
             (f b1.name (apply_prompt t prm).prompt 0) 1) 2) 2
             (agentNameOf b3.agent) (tok b3.agent),
           .final (mkFinal (f b3.name (f b2.name
               (f b1.name (apply_prompt t prm).prompt 0) 1) 2)
             [(b1.name, f b1.name (apply_prompt t prm).prompt 0),
              (b2.name, f b2.name (f b1.name (apply_prompt t prm).prompt 0) 1),
              (b3.name, f b3.name (f b2.name
                (f b1.name (apply_prompt t prm).prompt 0) 1) 2)])]
        [⟨b1.name, (apply_prompt t prm).prompt, 0⟩,
         ⟨b2.name, f b1.name (apply_prompt t prm).prompt 0, 1⟩,
         ⟨b3.name, f b2.name (f b1.name (apply_prompt t prm).prompt 0) 1,
           2⟩] := by
    unfold condition_streaming
    rw [hb']
    exact hs1 (apply_prompt t prm).prompt
  -- blocking walk, three iterations from the innermost out
  have hc3 : ∀ (fl : Nat) (v1 v2 pr : String),
      condition_go (pureOracle f) [b1, b2, b3]
        (apply_prompt t prm).prompt (fl + 1)
        [(b1.name, v1), (b2.name, v2)] b3.name pr 2 =
      .ok (mkFinal (f b3.name pr 2)
          [(b1.name, v1), (b2.name, v2), (b3.name, f b3.name pr 2)])
        [⟨b3.name, pr, 2⟩] := by
    intro fl v1 v2 pr
    rw [condition_go_step_linear f [b1, b2, b3]
      (apply_prompt t prm).prompt fl [(b1.name, v1), (b2.name, v2)]
      b3.name pr 2 b3 hd3 hf3, ha3]
    simp only [hdi3]
  have hc2 : ∀ (fl : Nat) (v1 pr : String),
      condition_go (pureOracle f) [b1, b2, b3]
        (apply_prompt t prm).prompt (fl + 2) [(b1.name, v1)] b2.name pr 1 =
      .ok (mkFinal (f b3.name (f b2.name pr 1) 2)
          [(b1.name, v1), (b2.name, f b2.name pr 1),
           (b3.name, f b3.name (f b2.name pr 1) 2)])
        [⟨b2.name, pr, 1⟩, ⟨b3.name, f b2.name pr 1, 2⟩] := by
    intro fl v1 pr
    have e : fl + 2 = (fl + 1) + 1 := rfl
    rw [e, condition_go_step_linear f [b1, b2, b3]
      (apply_prompt t prm).prompt (fl + 1) [(b1.name, v1)] b2.name pr 1
      b2 hd2 hf2, ha2]
    simp only [hdi2, hc3, consTrace]
  have hc1 : ∀ pr : String,
      condition_go (pureOracle f) [b1, b2, b3]
        (apply_prompt t prm).prompt (fuel2 + 3) [] b1.name pr 0 =
      .ok (mkFinal (f b3.name (f b2.name (f b1.name pr 0) 1) 2)
          [(b1.name, f b1.name pr 0),
           (b2.name, f b2.name (f b1.name pr 0) 1),
           (b3.name, f b3.name (f b2.name (f b1.name pr 0) 1) 2)])
        [⟨b1.name, pr, 0⟩, ⟨b2.name, f b1.name pr 0, 1⟩,
         ⟨b3.name, f b2.name (f b1.name pr 0) 1, 2⟩] := by
    intro pr
    have e : fuel2 + 3 = (fuel2 + 2) + 1 := rfl
    rw [e, condition_go_step_linear f [b1, b2, b3]
      (apply_prompt t prm).prompt (fuel2 + 2) [] b1.name pr 0 b1 hd1 hf1,
      ha1]
    simp only [hdi1, hc2, consTrace]
  have hcond : condition agents (pureOracle f) (apply_prompt t prm)
      (fuel2 + 3) =
      .ok (mkFinal (f b3.name (f b2.name
          (f b1.name (apply_prompt t prm).prompt 0) 1) 2)
        [(b1.name, f b1.name (apply_prompt t prm).prompt 0),
         (b2.name, f b2.name (f b1.name (apply_prompt t prm).prompt 0) 1),
         (b3.name, f b3.name (f b2.name
           (f b1.name (apply_prompt t prm).prompt 0) 1) 2)])
      [⟨b1.name, (apply_prompt t prm).prompt, 0⟩,
       ⟨b2.name, f b1.name (apply_prompt t prm).prompt 0, 1⟩,
       ⟨b3.name, f b2.name (f b1.name (apply_prompt t prm).prompt 0) 1,
         2⟩] := by
    unfold condition
    rw [hb']
    exact hc1 (apply_prompt t prm).prompt
  refine ⟨?_, ?_⟩
  · rw [run_streaming_def, hcs]
  · rw [run_def, hcond]
    simp only [hevent]

theorem claim_C3_witness :
    run_streaming [] (pureOracle fun s p _ => s ++ p) (fun _ => none)
      { prompt := "P", steps := [{ name := "x" }, { name := "y" },
        { name := "z" }] } "" 3 =
      .out [.step "x" "xP" 0 none none, .step "y" "yxP" 1 none none,
            .step "z" "zyxP" 2 none none,
            .final [("final_prompt", "zyxP"), ("x", "xP"), ("y", "yxP"),
                    ("z", "zyxP")]] [] ∧
    run [] (pureOracle fun s p _ => s ++ p) (fun _ => false) (fun r => r)
      (fun _ _ => false)
      { prompt := "P", steps := [{ name := "x" }, { name := "y" },
        { name := "z" }] } "" 3 0 =
      .ok [("final_prompt", "zyxP"), ("x", "xP"), ("y", "yxP"),
           ("z", "zyxP")]
        [⟨"x", "P", 0⟩, ⟨"y", "xP", 1⟩, ⟨"z", "yxP", 2⟩] :=
  claim_C3_streaming_matches_run [] (fun s p _ => s ++ p) (fun _ => none)
    (fun _ => false) (fun r => r) (fun _ _ => false)
    { prompt := "P",
      steps := [{ name := "x" }, { name := "y" }, { name := "z" }] } ""
    { name := "x" } { name := "y" } { name := "z" } (by decide) (by decide)
    (by decide) (by decide) rfl rfl rfl rfl 0 0 0

end Maestro
